import Mathlib

/-!
# Verification of the SingleM pipe core (`singlem/pipe.py`)

Shallow embedding of the purely computational layer of `SearchPipe`:

* `_seqs_to_counts_and_taxonomy` — grouping of windowed sequences into
  aggregated OTU records (`seqs_to_counts_and_taxonomy` below);
* `_median_taxonomy` — consensus ("median") taxonomy (`median_taxonomy` below);
* `_write_jplace_from_infos` — rewriting a jplace placement document from
  read-keyed to OTU-sequence-keyed (`write_jplace_from_infos` below).

Python dictionaries are embedded as association lists.  Per-group data
(`names`, `taxonomies`, `aligned_lengths`) is appended in encounter order
exactly as the source does; for the iteration order of dictionaries (which in
the source is the interpreter's fixed hash order) the embedding uses insertion
order, a choice none of the verified properties depend on, except that ties in
the consensus plurality vote resolve to the first-seen label, matching the
behaviour the spec documents as "first-seen highest count kept".

Python floats (the coverage accumulator) are embedded as `Rat`; the `>= 0.5`
threshold test `float(max_count) / len(taxonomies) >= 0.5` is embedded as the
exact integer test `2 * max_count ≥ len`, which agrees with IEEE double
rounding for all realistic list lengths (below `2^52`).  Fallible code
(Python exceptions) returns `Except String`.
-/

deriving instance DecidableEq for Except

attribute [local semireducible] Rat.add

namespace SingleM

/-- A windowed sequence as produced by `MetagenomeOtuFinder.find_windowed_sequences`
(the `Sequence` objects consumed by `_seqs_to_counts_and_taxonomy`): a read
name, the extracted aligned nucleotide window, the coverage increment
`coverage_increment()` and the aligned (non-gap) length. -/
structure SequenceWindow where
  name : String
  aligned_sequence : String
  coverage_increment : Rat
  aligned_length : Nat
deriving DecidableEq, Repr

/-- The per-group accumulator `CollectedInfo` of `_seqs_to_counts_and_taxonomy`. -/
structure CollectedInfo where
  count : Nat
  taxonomies : List String
  names : List String
  coverage : Rat
  aligned_lengths : List Nat
deriving DecidableEq, Repr

/-- `CollectedInfo.__init__`: all fields empty / zero. -/
def CollectedInfo.empty : CollectedInfo :=
  { count := 0, taxonomies := [], names := [], coverage := 0, aligned_lengths := [] }

/-- The emitted `Info` record of `_seqs_to_counts_and_taxonomy`. -/
structure Info where
  seq : String
  count : Nat
  taxonomy : String
  names : List String
  coverage : Rat
  aligned_lengths : List Nat
deriving DecidableEq, Repr

/-- Update the value stored at `key` in an association list (Python
`d[key] = f(d.get(key, default))` semantics: the first binding of `key` is
updated in place, a missing key is appended at the end, which is where a
fresh insertion goes in an insertion-ordered dictionary). -/
def updateAssoc {α : Type} (l : List (String × α)) (key : String) (dflt : α)
    (f : α → α) : List (String × α) :=
  match l with
  | [] => [(key, f dflt)]
  | (k, v) :: rest =>
    if k = key then (k, f v) :: rest else (k, v) :: updateAssoc rest key dflt f

/-- One iteration of the `for s in sequences` loop of
`_seqs_to_counts_and_taxonomy`: look the read name up in the taxonomy hash
(`KeyError` → `''`), then update the group of `s.aligned_sequence`.
`taxOpt = none` embeds a falsy `taxonomies` object, for which the
`if taxonomies:` guard skips the append to `collected_info.taxonomies`. -/
def addSeq (taxOpt : Option (List (String × String)))
    (acc : List (String × CollectedInfo)) (s : SequenceWindow) :
    List (String × CollectedInfo) :=
  let tax : String :=
    match taxOpt with
    | some t => (t.lookup s.name).getD ""
    | none => ""
  updateAssoc acc s.aligned_sequence CollectedInfo.empty (fun ci =>
    { count := ci.count + 1
      taxonomies := match taxOpt with
        | some _ => ci.taxonomies ++ [tax]
        | none => ci.taxonomies
      names := ci.names ++ [s.name]
      coverage := ci.coverage + s.coverage_increment
      aligned_lengths := ci.aligned_lengths ++ [s.aligned_length] })

/-- The `seq_to_collected_info` dictionary after the first loop of
`_seqs_to_counts_and_taxonomy`. -/
def collectGroups (taxOpt : Option (List (String × String)))
    (sequences : List SequenceWindow) : List (String × CollectedInfo) :=
  sequences.foldl (addSeq taxOpt) []

/-- Python `s.split(';')` on the character list: split at every `';'`,
yielding `n+1` (possibly empty) pieces for `n` separators; `''.split(';')`
is `['']`. -/
def splitSemis : List Char → List (List Char)
  | [] => [[]]
  | c :: rest =>
    let r := splitSemis rest
    if c = ';' then [] :: r
    else
      match r with
      | [] => [[c]]
      | x :: xs => (c :: x) :: xs

/-- The ASCII whitespace removed by Python 2 `str.strip()`. -/
def isPySpace (c : Char) : Bool :=
  c = ' ' || c = '\t' || c = '\n' || c = '\r' || c = '\x0b' || c = '\x0c'

/-- Python `s.strip()`: drop leading and trailing whitespace. -/
def pyStrip (s : String) : String :=
  String.mk (((s.data.dropWhile isPySpace).reverse.dropWhile isPySpace).reverse)

/-- `tax_string.split(';')` followed by the per-label `.strip()` applied in
`_median_taxonomy`. -/
def splitTaxons (tax_string : String) : List String :=
  ((splitSemis tax_string.data).map String.mk).map pyStrip

/-- `levels_to_counts[i][tax] += 1` with `KeyError → = 1` (a fresh label is
appended, counts of a seen label are bumped in place). -/
def bumpLevel (counts : List (String × Nat)) (tax : String) : List (String × Nat) :=
  match counts with
  | [] => [(tax, 1)]
  | (k, c) :: rest =>
    if k = tax then (k, c + 1) :: rest else (k, c) :: bumpLevel rest tax

/-- The inner `for i, tax in enumerate(tax_string.split(';'))` loop of
`_median_taxonomy`: walk the rank labels of one taxonomy string along the
`levels_to_counts` list, extending it where the string is deeper. -/
def addTaxString (levels : List (List (String × Nat))) (taxa : List String) :
    List (List (String × Nat)) :=
  match levels, taxa with
  | levels, [] => levels
  | [], t :: ts => bumpLevel [] t :: addTaxString [] ts
  | l :: ls, t :: ts => bumpLevel l t :: addTaxString ls ts

/-- The `levels_to_counts` structure of `_median_taxonomy` after its first loop. -/
def levelsToCounts (taxonomies : List String) : List (List (String × Nat)) :=
  taxonomies.foldl (fun levels ts => addTaxString levels (splitTaxons ts)) []

/-- The `max_count = 0; max_tax = None; for tax, count in level_counts: if
count > max_count` selection of `_median_taxonomy`: the first-seen label of
strictly highest count. -/
def selectMax (counts : List (String × Nat)) : Option String × Nat :=
  counts.foldl
    (fun (acc : Option String × Nat) (p : String × Nat) =>
      if p.2 > acc.2 then (some p.1, p.2) else acc)
    (none, 0)

/-- The second loop of `_median_taxonomy`: keep each level's winning label
while `float(max_count) / len(taxonomies) >= 0.5` (embedded exactly as
`2 * max_count ≥ n`), `break` at the first level below the threshold.  An
empty level (unreachable from `levelsToCounts`) has `max_tax = None` and
`max_count = 0` and, for a nonempty taxonomy list, fails the threshold. -/
def thresholdLevels (levels : List (List (String × Nat))) (n : Nat) : List String :=
  match levels with
  | [] => []
  | l :: ls =>
    match selectMax l with
    | (some t, c) => if 2 * c ≥ n then t :: thresholdLevels ls n else []
    | (none, _) => []

/-- The `median_tax` list built by `_median_taxonomy` before joining. -/
def medianTaxList (taxonomies : List String) : List String :=
  thresholdLevels (levelsToCounts taxonomies) taxonomies.length

/-- `SearchPipe._median_taxonomy`. -/
def median_taxonomy (taxonomies : List String) : String :=
  String.intercalate "; " (medianTaxList taxonomies)

/-- The per-group emission of `_seqs_to_counts_and_taxonomy`: in first-hit
mode `collected_info.taxonomies[0]` raises `IndexError` on an empty list;
otherwise `_median_taxonomy` is consulted.  (The `if tax is None: tax = ''`
guard of the source concerns taxonomy hashes whose values can be Python
`None`; values are embedded as strings, so it is the identity here.) -/
def emitInfo (use_first_taxonomy : Bool) (g : String × CollectedInfo) :
    Except String Info :=
  let (seq, ci) := g
  if use_first_taxonomy then
    match ci.taxonomies with
    | [] => .error "IndexError: list index out of range"
    | t :: _ =>
      .ok { seq := seq, count := ci.count, taxonomy := t, names := ci.names,
            coverage := ci.coverage, aligned_lengths := ci.aligned_lengths }
  else
    .ok { seq := seq, count := ci.count, taxonomy := median_taxonomy ci.taxonomies,
          names := ci.names, coverage := ci.coverage,
          aligned_lengths := ci.aligned_lengths }

/-- `SearchPipe._seqs_to_counts_and_taxonomy` (materialised, as by the
`list(...)` call at its use site). -/
def seqs_to_counts_and_taxonomy (sequences : List SequenceWindow)
    (taxOpt : Option (List (String × String))) (use_first_taxonomy : Bool) :
    Except String (List Info) :=
  (collectGroups taxOpt sequences).mapM (emitInfo use_first_taxonomy)

/-! ## Counting lemmas for the aggregation loop -/

/-- Total of the `count` fields over all groups. -/
def sumCounts (l : List (String × CollectedInfo)) : Nat :=
  (l.map (fun p => p.2.count)).sum

lemma sumCounts_updateAssoc (l : List (String × CollectedInfo)) (key : String)
    (f : CollectedInfo → CollectedInfo) (hf : ∀ ci, (f ci).count = ci.count + 1) :
    sumCounts (updateAssoc l key CollectedInfo.empty f) = sumCounts l + 1 := by
  induction l with
  | nil => simp [updateAssoc, sumCounts, hf, CollectedInfo.empty]
  | cons p rest ih =>
    obtain ⟨k, v⟩ := p
    by_cases h : k = key
    · simp [updateAssoc, h, sumCounts, hf]
      omega
    · simp [updateAssoc, h, sumCounts] at *
      omega

lemma sumCounts_addSeq (taxOpt : Option (List (String × String)))
    (acc : List (String × CollectedInfo)) (s : SequenceWindow) :
    sumCounts (addSeq taxOpt acc s) = sumCounts acc + 1 := by
  unfold addSeq
  exact sumCounts_updateAssoc acc s.aligned_sequence _ (fun ci => rfl)

lemma sumCounts_foldl (taxOpt : Option (List (String × String))) :
    ∀ (seqs : List SequenceWindow) (acc : List (String × CollectedInfo)),
      sumCounts (seqs.foldl (addSeq taxOpt) acc) = sumCounts acc + seqs.length := by
  intro seqs
  induction seqs with
  | nil => intro acc; simp
  | cons s rest ih =>
    intro acc
    simp only [List.foldl_cons, ih, sumCounts_addSeq, List.length_cons]
    omega

lemma sumCounts_collectGroups (taxOpt : Option (List (String × String)))
    (seqs : List SequenceWindow) :
    sumCounts (collectGroups taxOpt seqs) = seqs.length := by
  unfold collectGroups
  simpa [sumCounts] using sumCounts_foldl taxOpt seqs []

lemma mapM_forall₂ {α β : Type} {f : α → Except String β} :
    ∀ {l : List α} {out : List β}, l.mapM f = .ok out →
      List.Forall₂ (fun a b => f a = .ok b) l out := by
  intro l
  induction l with
  | nil =>
    intro out h
    rw [← List.mapM'_eq_mapM] at h
    simp only [List.mapM', pure, Except.pure] at h
    cases h
    exact .nil
  | cons a t ih =>
    intro out h
    rw [← List.mapM'_eq_mapM] at h
    simp only [List.mapM'] at h
    cases hfa : f a with
    | error e => rw [hfa] at h; simp [Bind.bind, Except.bind] at h
    | ok b =>
      rw [hfa] at h
      simp only [Bind.bind, Except.bind] at h
      cases hmt : t.mapM' f with
      | error e => rw [hmt] at h; simp at h
      | ok bs =>
        rw [hmt] at h
        simp only [pure, Except.pure, Except.ok.injEq] at h
        subst h
        rw [List.mapM'_eq_mapM] at hmt
        exact .cons hfa (ih hmt)

lemma emitInfo_ok (uf : Bool) (g : String × CollectedInfo) (i : Info)
    (h : emitInfo uf g = .ok i) :
    i.seq = g.1 ∧ i.count = g.2.count ∧ i.names = g.2.names ∧
      i.coverage = g.2.coverage ∧ i.aligned_lengths = g.2.aligned_lengths := by
  obtain ⟨seq, ci⟩ := g
  cases uf with
  | false =>
    simp only [emitInfo, Bool.false_eq_true, if_false, Except.ok.injEq] at h
    subst h
    exact ⟨rfl, rfl, rfl, rfl, rfl⟩
  | true =>
    simp only [emitInfo, if_true] at h
    cases htax : ci.taxonomies with
    | nil => rw [htax] at h; cases h
    | cons t ts =>
      rw [htax] at h
      simp only [Except.ok.injEq] at h
      subst h
      exact ⟨rfl, rfl, rfl, rfl, rfl⟩

/-- If the aggregation succeeds, the emitted records are pointwise the
collected groups. -/
lemma seqs_to_counts_ok (sequences : List SequenceWindow)
    (taxOpt : Option (List (String × String))) (uf : Bool) (infos : List Info)
    (h : seqs_to_counts_and_taxonomy sequences taxOpt uf = .ok infos) :
    List.Forall₂ (fun (g : String × CollectedInfo) (i : Info) =>
        emitInfo uf g = .ok i)
      (collectGroups taxOpt sequences) infos :=
  mapM_forall₂ h

lemma forall₂_count_map {uf : Bool} {groups : List (String × CollectedInfo)}
    {infos : List Info}
    (h : List.Forall₂ (fun g i => emitInfo uf g = .ok i) groups infos) :
    infos.map Info.count = groups.map (fun g => g.2.count) := by
  induction h with
  | nil => rfl
  | cons hgi _ ih => simp [ih, (emitInfo_ok _ _ _ hgi).2.1]

/-- C5: for every finite sequence of input `SequenceWindow` records fed to the
aggregation operation for one sample+gene group, the sum of the `count` fields
over all emitted aggregated records equals the number of input records. -/
theorem C5_count_conservation (sequences : List SequenceWindow)
    (taxOpt : Option (List (String × String))) (uf : Bool) (infos : List Info)
    (h : seqs_to_counts_and_taxonomy sequences taxOpt uf = .ok infos) :
    (infos.map Info.count).sum = sequences.length := by
  have h2 := seqs_to_counts_ok sequences taxOpt uf infos h
  rw [forall₂_count_map h2]
  exact sumCounts_collectGroups taxOpt sequences

/-- Witness for C5 at a concrete three-read input with two distinct windows. -/
theorem C5_count_conservation_witness :
    (([{ seq := "ACGT", count := 2, taxonomy := "a", names := ["r1", "r2"],
         coverage := 2, aligned_lengths := [4, 3] },
       { seq := "TT", count := 1, taxonomy := "", names := ["r3"],
         coverage := 1, aligned_lengths := [2] }] : List Info).map Info.count).sum
      = 3 :=
  C5_count_conservation
    [⟨"r1", "ACGT", 1, 4⟩, ⟨"r2", "ACGT", 1, 3⟩, ⟨"r3", "TT", 1, 2⟩]
    (some [("r1", "a")]) false _ (by decide)

/-! ## Lemmas for the taxonomy-list shape of collected groups (C4) -/

lemma updateAssoc_preserves {α : Type} (Q : α → Prop) (l : List (String × α))
    (key : String) (d : α) (f : α → α) (hd : Q d) (hf : ∀ v, Q v → Q (f v))
    (hl : ∀ p ∈ l, Q p.2) : ∀ p ∈ updateAssoc l key d f, Q p.2 := by
  induction l with
  | nil =>
    intro p hp
    simp only [updateAssoc, List.mem_singleton] at hp
    subst hp
    exact hf d hd
  | cons q rest ih =>
    obtain ⟨k, v⟩ := q
    intro p hp
    by_cases h : k = key
    · simp only [updateAssoc, h, if_true, List.mem_cons] at hp
      rcases hp with hp | hp
      · subst hp; exact hf v (hl (key, v) (by simp [h]))
      · exact hl p (List.mem_cons_of_mem _ hp)
    · simp only [updateAssoc, h, if_false, List.mem_cons] at hp
      rcases hp with hp | hp
      · subst hp; exact hl (k, v) (List.mem_cons_self _ _)
      · exact ih (fun q hq => hl q (List.mem_cons_of_mem _ hq)) p hp

lemma collectGroups_none_taxonomies (seqs : List SequenceWindow) :
    ∀ p ∈ collectGroups none seqs, p.2.taxonomies = [] := by
  suffices h : ∀ (seqs : List SequenceWindow) (acc : List (String × CollectedInfo)),
      (∀ p ∈ acc, p.2.taxonomies = []) →
      ∀ p ∈ seqs.foldl (addSeq none) acc, p.2.taxonomies = [] by
    exact h seqs [] (by simp)
  intro seqs
  induction seqs with
  | nil => intro acc hacc; simpa using hacc
  | cons s rest ih =>
    intro acc hacc
    simp only [List.foldl_cons]
    refine ih (addSeq none acc s) ?_
    intro p hp
    simp only [addSeq] at hp
    refine updateAssoc_preserves (fun ci => ci.taxonomies = []) acc
      s.aligned_sequence CollectedInfo.empty _ rfl ?_ hacc p hp
    intro v hv
    exact hv

lemma length_updateAssoc {α : Type} (l : List (String × α)) (key : String)
    (d : α) (f : α → α) : l.length ≤ (updateAssoc l key d f).length := by
  induction l with
  | nil => simp [updateAssoc]
  | cons q rest ih =>
    obtain ⟨k, v⟩ := q
    by_cases h : k = key
    · simp [updateAssoc, h]
    · simp [updateAssoc, h]
      omega

lemma collectGroups_ne_nil (taxOpt : Option (List (String × String)))
    (s : SequenceWindow) (rest : List SequenceWindow) :
    collectGroups taxOpt (s :: rest) ≠ [] := by
  have hmono : ∀ (l : List SequenceWindow) (acc : List (String × CollectedInfo)),
      acc.length ≤ (l.foldl (addSeq taxOpt) acc).length := by
    intro l
    induction l with
    | nil => intro acc; simp
    | cons x xs ih =>
      intro acc
      calc acc.length ≤ (addSeq taxOpt acc x).length := by
            unfold addSeq; exact length_updateAssoc acc x.aligned_sequence _ _
        _ ≤ _ := ih (addSeq taxOpt acc x)
  intro hnil
  have h1 : (addSeq taxOpt [] s).length = 1 := by
    unfold addSeq updateAssoc; rfl
  have := hmono rest (addSeq taxOpt [] s)
  rw [show collectGroups taxOpt (s :: rest)
        = rest.foldl (addSeq taxOpt) (addSeq taxOpt [] s) from rfl] at hnil
  rw [hnil] at this
  simp [h1] at this

lemma mapM_cons_error {α β : Type} (f : α → Except String β) (a : α)
    (t : List α) (e : String) (h : f a = .error e) :
    (a :: t).mapM f = .error e := by
  rw [← List.mapM'_eq_mapM]
  simp only [List.mapM', h, Bind.bind, Except.bind]

lemma mapM_ok_of_all_ok {α β : Type} (f : α → Except String β) :
    ∀ (l : List α), (∀ a ∈ l, ∃ b, f a = .ok b) → ∃ out, l.mapM f = .ok out := by
  intro l
  induction l with
  | nil => intro _; exact ⟨[], rfl⟩
  | cons a t ih =>
    intro h
    obtain ⟨b, hb⟩ := h a (List.mem_cons_self _ _)
    obtain ⟨out, hout⟩ := ih (fun x hx => h x (List.mem_cons_of_mem _ hx))
    refine ⟨b :: out, ?_⟩
    rw [← List.mapM'_eq_mapM] at hout ⊢
    simp only [List.mapM', hb, hout, Bind.bind, Except.bind, pure, Except.pure]

lemma forall₂_mem_right {α β : Type} {R : α → β → Prop} :
    ∀ {l₁ : List α} {l₂ : List β}, List.Forall₂ R l₁ l₂ →
      ∀ b ∈ l₂, ∃ a ∈ l₁, R a b := by
  intro l₁ l₂ h
  induction h with
  | nil => intro b hb; cases hb
  | cons hab _ ih =>
    intro b hb
    rcases List.mem_cons.mp hb with hb | hb
    · subst hb; exact ⟨_, List.mem_cons_self _ _, hab⟩
    · obtain ⟨a, ha, hr⟩ := ih b hb
      exact ⟨a, List.mem_cons_of_mem _ ha, hr⟩

/-- The claim of C4 is false for first-hit mode: on a group whose collected
taxonomy list is empty (here: a falsy taxonomy source), `taxonomies[0]`
raises `IndexError` instead of yielding the empty string. -/
theorem C4_counterexample :
    seqs_to_counts_and_taxonomy [⟨"r1", "ACGT", 1, 4⟩] none true
      = .error "IndexError: list index out of range" := by decide

/-- C4 (amended): for every group whose collected taxonomy list is empty,
consensus mode (`use_first_taxonomy = false`) yields taxonomy = `""` without
error; first-hit mode (`use_first_taxonomy = true`) instead fails with an
`IndexError` whenever any group exists. -/
theorem C4_empty_taxonomies (seqs : List SequenceWindow) :
    (∃ infos, seqs_to_counts_and_taxonomy seqs none false = .ok infos ∧
      ∀ i ∈ infos, i.taxonomy = "") ∧
    (seqs ≠ [] → ∃ e, seqs_to_counts_and_taxonomy seqs none true = .error e) := by
  constructor
  · have hok : ∃ infos,
        seqs_to_counts_and_taxonomy seqs none false = .ok infos := by
      apply mapM_ok_of_all_ok
      intro g _
      exact ⟨_, rfl⟩
    obtain ⟨infos, hinfos⟩ := hok
    refine ⟨infos, hinfos, ?_⟩
    intro i hi
    obtain ⟨g, hg, hgi⟩ := forall₂_mem_right
      (seqs_to_counts_ok seqs none false infos hinfos) i hi
    obtain ⟨seq, ci⟩ := g
    have htax : ci.taxonomies = [] :=
      collectGroups_none_taxonomies seqs (seq, ci) hg
    simp only [emitInfo, Bool.false_eq_true, if_false, Except.ok.injEq] at hgi
    subst hgi
    show median_taxonomy ci.taxonomies = ""
    rw [htax]
    rfl
  · intro hne
    cases seqs with
    | nil => exact absurd rfl hne
    | cons s rest =>
      cases hg : collectGroups none (s :: rest) with
      | nil => exact absurd hg (collectGroups_ne_nil none s rest)
      | cons g gs =>
        refine ⟨"IndexError: list index out of range", ?_⟩
        obtain ⟨seq, ci⟩ := g
        have htax : ci.taxonomies = [] :=
          collectGroups_none_taxonomies (s :: rest) (seq, ci) (by simp [hg])
        have herr : emitInfo true (seq, ci)
            = .error "IndexError: list index out of range" := by
          simp only [emitInfo, if_true]
          rw [htax]
        unfold seqs_to_counts_and_taxonomy
        rw [hg]
        exact mapM_cons_error _ _ _ _ herr

/-- Witness for C4 (amended) at a concrete one-read input. -/
theorem C4_empty_taxonomies_witness :
    ([⟨"r1", "ACGT", 1, 4⟩] : List SequenceWindow) ≠ [] ∧
    ∃ e, seqs_to_counts_and_taxonomy [⟨"r1", "ACGT", 1, 4⟩] none true
      = .error e :=
  ⟨by decide, (C4_empty_taxonomies [⟨"r1", "ACGT", 1, 4⟩]).2 (by decide)⟩

/-! ## Tally lemmas for the consensus taxonomy -/

/-- The count recorded for label `L` in one level's dictionary (0 if absent). -/
def cnt (l : List (String × Nat)) (L : String) : Nat :=
  (l.lookup L).getD 0

/-- How many of the input taxonomy strings carry the (stripped) label `L` at
rank depth `i`. -/
def tally (ts : List String) (i : Nat) (L : String) : Nat :=
  (ts.filter (fun t => (splitTaxons t)[i]? = some L)).length

lemma lookup_bumpLevel (l : List (String × Nat)) (t L : String) :
    (bumpLevel l t).lookup L =
      if L = t then some ((l.lookup t).getD 0 + 1) else l.lookup L := by
  induction l with
  | nil =>
    by_cases h : L = t
    · simp [bumpLevel, List.lookup, h]
    · simp [bumpLevel, List.lookup, h, show (L == t) = false by simpa using h]
  | cons p rest ih =>
    obtain ⟨k, c⟩ := p
    by_cases hkt : k = t
    · subst hkt
      by_cases h : L = k
      · simp [bumpLevel, List.lookup, h]
      · simp [bumpLevel, List.lookup, h, show (L == k) = false by simpa using h]
    · by_cases hLk : L = k
      · subst hLk
        simp [bumpLevel, if_neg hkt, List.lookup]
      · have h1 : (L == k) = false := by simpa using hLk
        have h2 : (t == k) = false := by
          simpa using fun h : t = k => hkt h.symm
        simp [bumpLevel, if_neg hkt, List.lookup, h1, h2, ih]

lemma cnt_bumpLevel (l : List (String × Nat)) (t L : String) :
    cnt (bumpLevel l t) L = cnt l L + (if L = t then 1 else 0) := by
  unfold cnt
  rw [lookup_bumpLevel]
  by_cases h : L = t
  · subst h; simp
  · simp [h]

lemma cnt_addTaxString (taxa : List String) :
    ∀ (levels : List (List (String × Nat))) (i : Nat) (L : String),
      cnt (((addTaxString levels taxa)[i]?).getD []) L =
        cnt ((levels[i]?).getD []) L + (if taxa[i]? = some L then 1 else 0) := by
  induction taxa with
  | nil =>
    intro levels i L
    cases levels <;> simp [addTaxString]
  | cons t ts ih =>
    intro levels i L
    cases levels with
    | nil =>
      cases i with
      | zero =>
        simp only [addTaxString, List.getElem?_cons_zero, Option.getD_some,
          List.getElem?_nil, Option.getD_none, cnt_bumpLevel]
        simp [cnt, List.lookup, eq_comm]
      | succ j =>
        simp only [addTaxString, List.getElem?_cons_succ, List.getElem?_nil]
        simpa using ih [] j L
    | cons l ls =>
      cases i with
      | zero =>
        simp only [addTaxString, List.getElem?_cons_zero, Option.getD_some,
          cnt_bumpLevel]
        simp [eq_comm]
      | succ j =>
        simp only [addTaxString, List.getElem?_cons_succ]
        exact ih ls j L

lemma tally_cons (t : String) (ts : List String) (i : Nat) (L : String) :
    tally (t :: ts) i L =
      (if (splitTaxons t)[i]? = some L then 1 else 0) + tally ts i L := by
  by_cases h : (splitTaxons t)[i]? = some L
  · simp [tally, List.filter_cons, h, Nat.add_comm]
  · simp [tally, List.filter_cons, h]

lemma cnt_levelsToCounts (ts : List String) (i : Nat) (L : String) :
    cnt (((levelsToCounts ts)[i]?).getD []) L = tally ts i L := by
  suffices h : ∀ (ts : List String) (levels : List (List (String × Nat))),
      cnt (((ts.foldl (fun lv t => addTaxString lv (splitTaxons t)) levels)[i]?).getD []) L =
        cnt ((levels[i]?).getD []) L + tally ts i L by
    simpa [levelsToCounts, tally, cnt, List.lookup] using h ts []
  intro ts
  induction ts with
  | nil => intro levels; simp [tally]
  | cons t rest ih =>
    intro levels
    simp only [List.foldl_cons]
    rw [ih (addTaxString levels (splitTaxons t)), cnt_addTaxString, tally_cons]
    omega

/-- Well-formedness of one level dictionary: distinct keys, positive counts,
nonempty. -/
def LevelWF (l : List (String × Nat)) : Prop :=
  (l.map Prod.fst).Nodup ∧ (∀ p ∈ l, 1 ≤ p.2) ∧ l ≠ []

lemma keys_bumpLevel (l : List (String × Nat)) (t : String) :
    (bumpLevel l t).map Prod.fst =
      if t ∈ l.map Prod.fst then l.map Prod.fst else l.map Prod.fst ++ [t] := by
  induction l with
  | nil => simp [bumpLevel]
  | cons p rest ih =>
    obtain ⟨k, c⟩ := p
    by_cases h : k = t
    · simp [bumpLevel, h]
    · have htk : ¬ t = k := fun he => h he.symm
      by_cases hmem : t ∈ rest.map Prod.fst
      · simp [bumpLevel, h, ih, hmem, htk]
      · simp [bumpLevel, h, ih, hmem, htk]

lemma values_bumpLevel (l : List (String × Nat)) (t : String)
    (h : ∀ p ∈ l, 1 ≤ p.2) : ∀ p ∈ bumpLevel l t, 1 ≤ p.2 := by
  induction l with
  | nil =>
    intro p hp
    simp only [bumpLevel, List.mem_singleton] at hp
    subst hp
    exact Nat.le_refl 1
  | cons q rest ih =>
    obtain ⟨k, c⟩ := q
    intro p hp
    by_cases hk : k = t
    · simp only [bumpLevel, hk, if_true, List.mem_cons] at hp
      rcases hp with hp | hp
      · subst hp; omega
      · exact h p (List.mem_cons_of_mem _ hp)
    · simp only [bumpLevel, hk, if_false, List.mem_cons] at hp
      rcases hp with hp | hp
      · subst hp; exact h (k, c) (List.mem_cons_self _ _)
      · exact ih (fun q hq => h q (List.mem_cons_of_mem _ hq)) p hp

lemma bumpLevel_ne_nil (l : List (String × Nat)) (t : String) :
    bumpLevel l t ≠ [] := by
  cases l with
  | nil => simp [bumpLevel]
  | cons p rest =>
    obtain ⟨k, c⟩ := p
    by_cases h : k = t <;> simp [bumpLevel, h]

lemma levelWF_bumpLevel (l : List (String × Nat)) (t : String) (h : LevelWF l ∨ l = []) :
    LevelWF (bumpLevel l t) := by
  have hnd : (l.map Prod.fst).Nodup := by
    rcases h with h | h
    · exact h.1
    · subst h; simp
  have hval : ∀ p ∈ l, 1 ≤ p.2 := by
    rcases h with h | h
    · exact h.2.1
    · subst h; simp
  refine ⟨?_, values_bumpLevel l t hval, bumpLevel_ne_nil l t⟩
  rw [keys_bumpLevel]
  by_cases hmem : t ∈ l.map Prod.fst
  · simpa [hmem] using hnd
  · simp only [hmem, if_false]
    simp [List.nodup_append, hnd, hmem]

lemma levelWF_addTaxString (taxa : List String) :
    ∀ (levels : List (List (String × Nat))), (∀ l ∈ levels, LevelWF l) →
      ∀ l ∈ addTaxString levels taxa, LevelWF l := by
  induction taxa with
  | nil =>
    intro levels h l hl
    cases levels <;> simpa [addTaxString] using h l hl
  | cons t ts ih =>
    intro levels h l hl
    cases levels with
    | nil =>
      simp only [addTaxString, List.mem_cons] at hl
      rcases hl with hl | hl
      · subst hl; exact levelWF_bumpLevel [] t (Or.inr rfl)
      · exact ih [] (by simp) l hl
    | cons l0 ls =>
      simp only [addTaxString, List.mem_cons] at hl
      rcases hl with hl | hl
      · subst hl
        exact levelWF_bumpLevel l0 t (Or.inl (h l0 (List.mem_cons_self _ _)))
      · exact ih ls (fun x hx => h x (List.mem_cons_of_mem _ hx)) l hl

lemma levelWF_levelsToCounts (ts : List String) :
    ∀ l ∈ levelsToCounts ts, LevelWF l := by
  suffices h : ∀ (ts : List String) (levels : List (List (String × Nat))),
      (∀ l ∈ levels, LevelWF l) →
      ∀ l ∈ ts.foldl (fun levels ts => addTaxString levels (splitTaxons ts)) levels,
        LevelWF l by
    exact h ts [] (by simp)
  intro ts
  induction ts with
  | nil => intro levels h; simpa using h
  | cons t rest ih =>
    intro levels h
    simp only [List.foldl_cons]
    exact ih (addTaxString levels (splitTaxons t)) (levelWF_addTaxString _ levels h)

/-! ## Lemmas about the plurality selection and the threshold loop -/

lemma lookup_of_mem_nodup {α : Type} (l : List (String × α))
    (hnd : (l.map Prod.fst).Nodup) (k : String) (v : α) (h : (k, v) ∈ l) :
    l.lookup k = some v := by
  induction l with
  | nil => cases h
  | cons p rest ih =>
    obtain ⟨k', v'⟩ := p
    simp only [List.map_cons, List.nodup_cons] at hnd
    rcases List.mem_cons.mp h with hh | hh
    · obtain ⟨h1, h2⟩ : k = k' ∧ v = v' := by simpa [Prod.ext_iff] using hh
      subst h1; subst h2
      simp [List.lookup]
    · have hk : (k == k') = false := by
        have hne : k ≠ k' := by
          intro he
          subst he
          exact hnd.1 (List.mem_map.mpr ⟨(k, v), hh, rfl⟩)
        simpa using hne
      simp only [List.lookup, hk]
      exact ih hnd.2 hh

lemma mem_of_lookup {α : Type} (l : List (String × α)) (k : String) (v : α)
    (h : l.lookup k = some v) : (k, v) ∈ l := by
  induction l with
  | nil => cases h
  | cons p rest ih =>
    obtain ⟨k', v'⟩ := p
    by_cases hk : k = k'
    · subst hk
      simp only [List.lookup, beq_self_eq_true, Option.some.injEq] at h
      subst h
      exact List.mem_cons_self _ _
    · simp only [List.lookup, show (k == k') = false by simpa using hk] at h
      exact List.mem_cons_of_mem _ (ih h)

lemma selectMax_foldl_spec (l : List (String × Nat)) :
    ∀ (acc : Option String × Nat),
      acc.2 ≤ (l.foldl
        (fun (acc : Option String × Nat) (p : String × Nat) =>
          if p.2 > acc.2 then (some p.1, p.2) else acc) acc).2 ∧
      (∀ p ∈ l, p.2 ≤ (l.foldl
        (fun (acc : Option String × Nat) (p : String × Nat) =>
          if p.2 > acc.2 then (some p.1, p.2) else acc) acc).2) ∧
      ((l.foldl
        (fun (acc : Option String × Nat) (p : String × Nat) =>
          if p.2 > acc.2 then (some p.1, p.2) else acc) acc) = acc ∨
        ∃ p ∈ l, (l.foldl
          (fun (acc : Option String × Nat) (p : String × Nat) =>
            if p.2 > acc.2 then (some p.1, p.2) else acc) acc) = (some p.1, p.2)) := by
  induction l with
  | nil => intro acc; exact ⟨Nat.le_refl _, by simp, Or.inl rfl⟩
  | cons q rest ih =>
    intro acc
    simp only [List.foldl_cons]
    by_cases hq : q.2 > acc.2
    · obtain ⟨h1, h2, h3⟩ := ih (some q.1, q.2)
      refine ⟨?_, ?_, ?_⟩
      · simp only [if_pos hq] at *
        omega
      · intro p hp
        rcases List.mem_cons.mp hp with hp | hp
        · subst hp; simpa [if_pos hq] using h1
        · simpa [if_pos hq] using h2 p hp
      · simp only [if_pos hq]
        rcases h3 with h3 | ⟨p, hp, hp2⟩
        · exact Or.inr ⟨q, List.mem_cons_self _ _, by simpa using h3⟩
        · exact Or.inr ⟨p, List.mem_cons_of_mem _ hp, hp2⟩
    · obtain ⟨h1, h2, h3⟩ := ih acc
      refine ⟨?_, ?_, ?_⟩
      · simpa [if_neg hq] using h1
      · intro p hp
        rcases List.mem_cons.mp hp with hp | hp
        · subst hp
          simp only [if_neg hq]
          omega
        · simpa [if_neg hq] using h2 p hp
      · simp only [if_neg hq]
        rcases h3 with h3 | ⟨p, hp, hp2⟩
        · exact Or.inl h3
        · exact Or.inr ⟨p, List.mem_cons_of_mem _ hp, hp2⟩

lemma selectMax_some (l : List (String × Nat)) (hnd : (l.map Prod.fst).Nodup)
    (L : String) (c : Nat) (h : selectMax l = (some L, c)) :
    l.lookup L = some c ∧ ∀ p ∈ l, p.2 ≤ c := by
  obtain ⟨_, h2, h3⟩ := selectMax_foldl_spec l (none, 0)
  have hfold : (l.foldl
      (fun (acc : Option String × Nat) (p : String × Nat) =>
        if p.2 > acc.2 then (some p.1, p.2) else acc) ((none : Option String), 0))
    = selectMax l := rfl
  rw [hfold] at h2 h3
  rw [h] at h2 h3
  rcases h3 with h3 | ⟨p, hp, hp2⟩
  · simp [Prod.ext_iff] at h3
  · obtain ⟨hL, hc⟩ : L = p.1 ∧ c = p.2 := by simpa [Prod.ext_iff] using hp2
    have hmem : (L, c) ∈ l := by rw [hL, hc]; simpa using hp
    exact ⟨lookup_of_mem_nodup l hnd L c hmem, fun q hq => h2 q hq⟩

lemma selectMax_none (l : List (String × Nat)) (h : (selectMax l).1 = none) :
    ∀ p ∈ l, p.2 = 0 := by
  obtain ⟨_, h2, h3⟩ := selectMax_foldl_spec l (none, 0)
  have hfold : (l.foldl
      (fun (acc : Option String × Nat) (p : String × Nat) =>
        if p.2 > acc.2 then (some p.1, p.2) else acc) ((none : Option String), 0))
    = selectMax l := rfl
  rw [hfold] at h2 h3
  rcases h3 with h3 | ⟨p, hp, hp2⟩
  · intro q hq
    have := h2 q hq
    rw [h3] at this
    simpa using this
  · rw [hp2] at h
    cases h

lemma selectMax_of_levelWF (l : List (String × Nat)) (h : LevelWF l) :
    ∃ L c, selectMax l = (some L, c) ∧ 1 ≤ c ∧ l.lookup L = some c ∧
      ∀ p ∈ l, p.2 ≤ c := by
  obtain ⟨hnd, hval, hne⟩ := h
  cases hsel : selectMax l with
  | mk o c =>
    cases o with
    | none =>
      exfalso
      cases l with
      | nil => exact hne rfl
      | cons p rest =>
        have := selectMax_none (p :: rest) (by rw [hsel])
        have h1 := this p (List.mem_cons_self _ _)
        have h2 := hval p (List.mem_cons_self _ _)
        omega
    | some L =>
      obtain ⟨hlook, hmax⟩ := selectMax_some l hnd L c hsel
      have hc : 1 ≤ c := by
        have := hval (L, c) (mem_of_lookup l L c hlook)
        simpa using this
      exact ⟨L, c, rfl, hc, hlook, hmax⟩

lemma thresholdLevels_get_some :
    ∀ (levels : List (List (String × Nat))) (n i : Nat) (L : String),
      (thresholdLevels levels n)[i]? = some L →
      ∃ l c, levels[i]? = some l ∧ selectMax l = (some L, c) ∧ 2 * c ≥ n := by
  intro levels
  induction levels with
  | nil => intro n i L h; simp [thresholdLevels] at h
  | cons l0 ls ih =>
    intro n i L h
    cases hsel : selectMax l0 with
    | mk o c0 =>
      cases o with
      | none => simp [thresholdLevels, hsel] at h
      | some t =>
        by_cases hth : 2 * c0 ≥ n
        · simp only [thresholdLevels, hsel, if_pos hth] at h
          cases i with
          | zero =>
            simp only [List.getElem?_cons_zero, Option.some.injEq] at h
            subst h
            exact ⟨l0, c0, by simp, hsel, hth⟩
          | succ j =>
            simp only [List.getElem?_cons_succ] at h
            obtain ⟨l, c, h1, h2, h3⟩ := ih n j L h
            exact ⟨l, c, by simpa using h1, h2, h3⟩
        · simp [thresholdLevels, hsel, if_neg hth] at h

lemma thresholdLevels_reached :
    ∀ (levels : List (List (String × Nat))) (n i : Nat),
      i ≤ (thresholdLevels levels n).length →
      ∀ l, levels[i]? = some l → ∀ L c, selectMax l = (some L, c) →
        (2 * c ≥ n → (thresholdLevels levels n)[i]? = some L) ∧
        (2 * c < n → (thresholdLevels levels n).length = i) := by
  intro levels
  induction levels with
  | nil => intro n i _ l hl; simp at hl
  | cons l0 ls ih =>
    intro n i hi l hl L c hsel
    cases i with
    | zero =>
      simp only [List.getElem?_cons_zero, Option.some.injEq] at hl
      subst hl
      constructor
      · intro hth
        simp [thresholdLevels, hsel, if_pos hth]
      · intro hth
        simp [thresholdLevels, hsel, if_neg (by omega : ¬ 2 * c ≥ n)]
    | succ j =>
      simp only [List.getElem?_cons_succ] at hl
      cases hsel0 : selectMax l0 with
      | mk o0 c0 =>
        cases o0 with
        | none => simp [thresholdLevels, hsel0] at hi
        | some t0 =>
          by_cases hth0 : 2 * c0 ≥ n
          · simp only [thresholdLevels, hsel0, if_pos hth0] at hi ⊢
            simp only [List.length_cons, Nat.succ_le_succ_iff] at hi
            obtain ⟨ha, hb⟩ := ih n j hi l hl L c hsel
            refine ⟨?_, ?_⟩
            · intro h; simpa using ha h
            · intro h; simp [hb h]
          · simp [thresholdLevels, hsel0, if_neg hth0] at hi

lemma tally_selectMax (ts : List String) (i : Nat) (l : List (String × Nat))
    (hl : (levelsToCounts ts)[i]? = some l) (L : String) (c : Nat)
    (hnd : (l.map Prod.fst).Nodup) (hsel : selectMax l = (some L, c)) :
    tally ts i L = c ∧ ∀ M, tally ts i M ≤ c := by
  obtain ⟨hlook, hmax⟩ := selectMax_some l hnd L c hsel
  have hcnt : ∀ M, tally ts i M = cnt l M := by
    intro M
    rw [← cnt_levelsToCounts, hl]
    rfl
  constructor
  · rw [hcnt L]
    unfold cnt
    rw [hlook]
    rfl
  · intro M
    rw [hcnt M]
    unfold cnt
    cases hlkM : l.lookup M with
    | none => simp
    | some v =>
      have := hmax (M, v) (mem_of_lookup l M v hlkM)
      simpa using this

/-- Modelled from the spec: a variant of the `_median_taxonomy` threshold loop
whose denominator is, as §4.3 words it, "the total reads considered at that
depth (not total group size)" — the sum of the level's tallies, i.e. the
number of contributing reads having a label at that depth.  Used only to
exhibit that the source divides by the total group size instead. -/
def thresholdLevelsDepthwise : List (List (String × Nat)) → List String
  | [] => []
  | l :: ls =>
    match selectMax l with
    | (some t, c) =>
      if 2 * c ≥ (l.map Prod.snd).sum then t :: thresholdLevelsDepthwise ls else []
    | (none, _) => []

/-- Modelled from the spec: `_median_taxonomy` as the spec describes it, with
the per-depth denominator of `thresholdLevelsDepthwise`. -/
def median_taxonomy_depthwise (taxonomies : List String) : String :=
  String.intercalate "; " (thresholdLevelsDepthwise (levelsToCounts taxonomies))

/-- C1 counterexample: for `["a; b", "a", "a"]` the source stops after `"a"`
(the depth-1 winner `"b"` has frequency 1 < 3/2 of the whole group), while
the claim's per-depth denominator (1 read has a label at depth 1, and `"b"`
holds 100% ≥ 50% of it) would keep `"a; b"`. -/
theorem C1_counterexample :
    median_taxonomy ["a; b", "a", "a"] = "a" ∧
    median_taxonomy_depthwise ["a; b", "a", "a"] = "a; b" ∧
    ¬ median_taxonomy ["a; b", "a", "a"]
        = median_taxonomy_depthwise ["a; b", "a", "a"] := by decide

/-- C1 (amended): in consensus mode the winning label at depth `i` is kept
only if its frequency is at least 50% of the **total number of taxonomy
strings in the group** (`len(taxonomies)`), not of just the reads labelled at
that depth; otherwise consensus stops at that depth and all deeper ranks are
omitted.  Surviving labels are plurality winners at their depth. -/
theorem C1_consensus_threshold (ts : List String) :
    (∀ i L, (medianTaxList ts)[i]? = some L →
      2 * tally ts i L ≥ ts.length ∧ ∀ M, tally ts i M ≤ tally ts i L) ∧
    (∀ i l, (medianTaxList ts).length = i → (levelsToCounts ts)[i]? = some l →
      ∀ M, 2 * tally ts i M < ts.length) := by
  constructor
  · intro i L h
    obtain ⟨l, c, hl, hsel, hth⟩ :=
      thresholdLevels_get_some (levelsToCounts ts) ts.length i L h
    have hWF := levelWF_levelsToCounts ts l (List.getElem?_mem hl)
    obtain ⟨htL, htM⟩ := tally_selectMax ts i l hl L c hWF.1 hsel
    refine ⟨?_, ?_⟩
    · rw [htL]; exact hth
    · intro M
      rw [htL]
      exact htM M
  · intro i l hlen hl M
    have hWF := levelWF_levelsToCounts ts l (List.getElem?_mem hl)
    obtain ⟨W, c, hsel, hc1, hlook, hmax⟩ := selectMax_of_levelWF l hWF
    obtain ⟨ha, hb⟩ := thresholdLevels_reached (levelsToCounts ts) ts.length i
      (Nat.le_of_eq hlen.symm) l hl W c hsel
    have h2c : ¬ 2 * c ≥ ts.length := by
      intro hge
      have hW := ha hge
      have hnone : (thresholdLevels (levelsToCounts ts) ts.length)[i]? = none :=
        List.getElem?_eq_none (Nat.le_of_eq hlen)
      rw [hnone] at hW
      cases hW
    obtain ⟨_, htM⟩ := tally_selectMax ts i l hl W c hWF.1 hsel
    have := htM M
    omega

/-- Witness for C1 (amended) at `["a;b", "a;b", "a;c"]`, whose consensus is
`["a", "b"]`: the surviving depth-1 label `"b"` covers 2 of 3 group members. -/
theorem C1_consensus_threshold_witness :
    2 * tally ["a;b", "a;b", "a;c"] 1 "b" ≥ (["a;b", "a;b", "a;c"] : List String).length :=
  ((C1_consensus_threshold ["a;b", "a;b", "a;c"]).1 1 "b" (by decide)).1

/-- C7: at a rank depth the consensus reaches, a plurality label holding
exactly 50% of the group is kept (a label with the same count survives at
that depth — on a tie the first-seen one); a plurality share strictly below
50% stops consensus at that depth. -/
theorem C7_threshold_boundary (ts : List String) (i : Nat) (L : String)
    (hreach : i ≤ (medianTaxList ts).length)
    (hlevel : i < (levelsToCounts ts).length)
    (hplur : ∀ M, tally ts i M ≤ tally ts i L) :
    (2 * tally ts i L = ts.length →
      (∃ W, (medianTaxList ts)[i]? = some W ∧ tally ts i W = tally ts i L) ∧
      ((∀ M, M ≠ L → tally ts i M < tally ts i L) →
        (medianTaxList ts)[i]? = some L)) ∧
    (2 * tally ts i L < ts.length → (medianTaxList ts).length = i) := by
  obtain ⟨l, hl⟩ : ∃ l, (levelsToCounts ts)[i]? = some l := by
    rw [List.getElem?_eq_getElem hlevel]
    exact ⟨_, rfl⟩
  have hWF := levelWF_levelsToCounts ts l (List.getElem?_mem hl)
  obtain ⟨W, c, hsel, hc1, hlook, hmax⟩ := selectMax_of_levelWF l hWF
  obtain ⟨ha, hb⟩ := thresholdLevels_reached (levelsToCounts ts) ts.length i
    hreach l hl W c hsel
  obtain ⟨htW, htM⟩ := tally_selectMax ts i l hl W c hWF.1 hsel
  have hcL : tally ts i L = c := Nat.le_antisymm (htM L) (htW ▸ hplur W)
  constructor
  · intro hexact
    have hWkept : (medianTaxList ts)[i]? = some W := ha (by omega)
    refine ⟨⟨W, hWkept, by rw [htW, hcL]⟩, ?_⟩
    intro huniq
    by_cases hWL : W = L
    · rw [← hWL]; exact hWkept
    · exact absurd (htW.symm ▸ hcL ▸ huniq W hWL) (by omega)
  · intro hbelow
    exact hb (by omega)

/-- Witness for C7 at `["b", "c"]`, a two-read group split 1/1 at depth 0:
the share of `"b"` is exactly 50% and a depth-0 label is kept. -/
theorem C7_threshold_boundary_witness :
    ∃ W, (medianTaxList ["b", "c"])[0]? = some W ∧
      tally ["b", "c"] 0 W = tally ["b", "c"] 0 "b" :=
  ((C7_threshold_boundary ["b", "c"] 0 "b" (by decide) (by decide)
    (by
      intro M
      by_cases h1 : M = "b"
      · subst h1; decide
      · by_cases h2 : M = "c"
        · subst h2; decide
        · have e1 : (splitTaxons "b")[0]? = some "b" := by decide
          have e2 : (splitTaxons "c")[0]? = some "c" := by decide
          rw [tally_cons, tally_cons, e1, e2,
            if_neg (fun h : some "b" = some M => h1 (Option.some_inj.mp h).symm),
            if_neg (fun h : some "c" = some M => h2 (Option.some_inj.mp h).symm)]
          simp [tally])).1 (by decide)).1

/-- C8 counterexample: the source joins with `'; '` (semicolon and space),
not with the bare `';'` on which the input taxonomy strings are split:
`["a;b"]` yields `"a; b"`, not `"a;b"`. -/
theorem C8_counterexample :
    median_taxonomy ["a;b"] = "a; b" ∧
    String.intercalate ";" (medianTaxList ["a;b"]) = "a;b" ∧
    ¬ median_taxonomy ["a;b"]
        = String.intercalate ";" (medianTaxList ["a;b"]) := by decide

/-- C8 (amended): the consensus taxonomy is the surviving rank labels —
each a whitespace-stripped label actually occurring at its depth in some
input string — rejoined with `'; '` (semicolon followed by a space), not
with the bare `';'` separator on which the inputs were split. -/
theorem C8_rejoin (ts : List String) :
    median_taxonomy ts = String.intercalate "; " (medianTaxList ts) ∧
    ∀ i L, (medianTaxList ts)[i]? = some L → 1 ≤ tally ts i L := by
  refine ⟨rfl, ?_⟩
  intro i L h
  obtain ⟨l, c, hl, hsel, hth⟩ :=
    thresholdLevels_get_some (levelsToCounts ts) ts.length i L h
  have hWF := levelWF_levelsToCounts ts l (List.getElem?_mem hl)
  obtain ⟨htL, _⟩ := tally_selectMax ts i l hl L c hWF.1 hsel
  obtain ⟨hlook, _⟩ := selectMax_some l hWF.1 L c hsel
  have hc1 : 1 ≤ c := by
    have := hWF.2.1 (L, c) (mem_of_lookup l L c hlook)
    simpa using this
  omega

/-- Witness for C8 (amended): the surviving depth-0 label of `["a;b"]`
occurs at depth 0 of an input string. -/
theorem C8_rejoin_witness : 1 ≤ tally ["a;b"] 0 "a" :=
  (C8_rejoin ["a;b"]).2 0 "a" (by decide)

/-! ## Per-group contents of the aggregation (C10) -/

/-- The input records contributing to the group keyed by `key`, in encounter
order. -/
def groupReads (seqs : List SequenceWindow) (key : String) : List SequenceWindow :=
  seqs.filter (fun s => s.aligned_sequence = key)

lemma lookup_updateAssoc {α : Type} (l : List (String × α)) (key : String)
    (d : α) (f : α → α) (k : String) :
    (updateAssoc l key d f).lookup k =
      if k = key then some (f ((l.lookup key).getD d)) else l.lookup k := by
  induction l with
  | nil =>
    by_cases h : k = key
    · simp [updateAssoc, List.lookup, h]
    · simp [updateAssoc, List.lookup, h, show (k == key) = false by simpa using h]
  | cons p rest ih =>
    obtain ⟨k', v'⟩ := p
    by_cases hk' : k' = key
    · subst hk'
      by_cases h : k = k'
      · simp [updateAssoc, List.lookup, h]
      · simp [updateAssoc, List.lookup, h,
          show (k == k') = false by simpa using h]
    · by_cases h : k = k'
      · subst h
        have hne : ¬ k = key := fun he => hk' he
        simp [updateAssoc, List.lookup, hk', hne]
      · simp [updateAssoc, List.lookup, hk', h, ih,
          show (k == k') = false by simpa using h,
          show (key == k') = false by simpa using fun he : key = k' => hk' he.symm]

/-- Relation between the processed prefix of the input and the accumulator
dictionary of `_seqs_to_counts_and_taxonomy`: each group's `names`,
`aligned_lengths` and `count` are exactly those of its contributing records
in encounter order. -/
def GroupsInv (processed : List SequenceWindow)
    (acc : List (String × CollectedInfo)) : Prop :=
  ∀ k, match acc.lookup k with
    | some ci =>
      ci.names = (groupReads processed k).map SequenceWindow.name ∧
      ci.aligned_lengths = (groupReads processed k).map SequenceWindow.aligned_length ∧
      ci.count = (groupReads processed k).length
    | none => groupReads processed k = []

lemma groupReads_append_self (processed : List SequenceWindow)
    (s : SequenceWindow) :
    groupReads (processed ++ [s]) s.aligned_sequence =
      groupReads processed s.aligned_sequence ++ [s] := by
  simp [groupReads, List.filter_append]

lemma groupReads_append_other (processed : List SequenceWindow)
    (s : SequenceWindow) (k : String) (h : ¬ k = s.aligned_sequence) :
    groupReads (processed ++ [s]) k = groupReads processed k := by
  simp [groupReads, List.filter_append,
    show ¬ s.aligned_sequence = k from fun he => h he.symm]

lemma groupsInv_update (processed : List SequenceWindow)
    (acc : List (String × CollectedInfo)) (s : SequenceWindow)
    (f : CollectedInfo → CollectedInfo)
    (hfn : ∀ ci, (f ci).names = ci.names ++ [s.name])
    (hfl : ∀ ci, (f ci).aligned_lengths = ci.aligned_lengths ++ [s.aligned_length])
    (hfc : ∀ ci, (f ci).count = ci.count + 1)
    (h : GroupsInv processed acc) :
    GroupsInv (processed ++ [s])
      (updateAssoc acc s.aligned_sequence CollectedInfo.empty f) := by
  intro k
  rw [lookup_updateAssoc]
  by_cases hk : k = s.aligned_sequence
  · subst hk
    simp only [if_pos rfl]
    have hi := h s.aligned_sequence
    cases hacc : acc.lookup s.aligned_sequence with
    | some ci =>
      rw [hacc] at hi
      simp only [Option.getD_some]
      rw [groupReads_append_self]
      refine ⟨?_, ?_, ?_⟩
      · simp [hfn, hi.1]
      · simp [hfl, hi.2.1]
      · simp [hfc, hi.2.2]
    | none =>
      rw [hacc] at hi
      simp only [Option.getD_none]
      rw [groupReads_append_self, hi]
      refine ⟨?_, ?_, ?_⟩
      · simp [hfn, CollectedInfo.empty]
      · simp [hfl, CollectedInfo.empty]
      · simp [hfc, CollectedInfo.empty]
  · simp only [if_neg hk]
    have hi := h k
    rw [groupReads_append_other processed s k hk]
    exact hi

lemma groupsInv_addSeq (taxOpt : Option (List (String × String)))
    (processed : List SequenceWindow) (acc : List (String × CollectedInfo))
    (s : SequenceWindow) (h : GroupsInv processed acc) :
    GroupsInv (processed ++ [s]) (addSeq taxOpt acc s) := by
  unfold addSeq
  exact groupsInv_update processed acc s _
    (fun ci => rfl) (fun ci => rfl) (fun ci => rfl) h

lemma groupsInv_collectGroups (taxOpt : Option (List (String × String)))
    (seqs : List SequenceWindow) : GroupsInv seqs (collectGroups taxOpt seqs) := by
  suffices h : ∀ (seqs processed : List SequenceWindow)
      (acc : List (String × CollectedInfo)), GroupsInv processed acc →
      GroupsInv (processed ++ seqs) (seqs.foldl (addSeq taxOpt) acc) by
    have h0 : GroupsInv [] ([] : List (String × CollectedInfo)) := by
      intro k
      show groupReads [] k = []
      rfl
    have hr := h seqs [] [] h0
    rw [List.nil_append] at hr
    exact hr
  intro seqs
  induction seqs with
  | nil =>
    intro processed acc h
    rw [List.append_nil]
    exact h
  | cons s rest ih =>
    intro processed acc h
    have step := ih (processed ++ [s]) (addSeq taxOpt acc s)
      (groupsInv_addSeq taxOpt processed acc s h)
    rw [List.append_assoc, List.singleton_append] at step
    exact step

lemma keys_updateAssoc {α : Type} (l : List (String × α)) (key : String)
    (d : α) (f : α → α) :
    (updateAssoc l key d f).map Prod.fst =
      if key ∈ l.map Prod.fst then l.map Prod.fst
      else l.map Prod.fst ++ [key] := by
  induction l with
  | nil => simp [updateAssoc]
  | cons p rest ih =>
    obtain ⟨k, v⟩ := p
    by_cases h : k = key
    · simp [updateAssoc, h]
    · have hkk : ¬ key = k := fun he => h he.symm
      by_cases hmem : key ∈ rest.map Prod.fst
      · simp [updateAssoc, h, ih, hmem, hkk]
      · simp [updateAssoc, h, ih, hmem, hkk]

lemma nodupKeys_collectGroups (taxOpt : Option (List (String × String)))
    (seqs : List SequenceWindow) :
    ((collectGroups taxOpt seqs).map Prod.fst).Nodup := by
  suffices h : ∀ (seqs : List SequenceWindow)
      (acc : List (String × CollectedInfo)), (acc.map Prod.fst).Nodup →
      (((seqs.foldl (addSeq taxOpt) acc)).map Prod.fst).Nodup by
    exact h seqs [] (by simp)
  intro seqs
  induction seqs with
  | nil => intro acc h; simpa using h
  | cons s rest ih =>
    intro acc h
    refine ih (addSeq taxOpt acc s) ?_
    unfold addSeq
    rw [keys_updateAssoc]
    by_cases hmem : s.aligned_sequence ∈ acc.map Prod.fst
    · simpa [hmem] using h
    · simp only [hmem, if_false]
      simp [List.nodup_append, h, hmem]

/-- C10: for every record emitted by the aggregation operation, the `count`
field equals the length of the contributing read-names list and the length
of the aligned-lengths list; both lists are the per-field projections of the
same encounter-ordered list of contributing input records, so `names[i]` and
`aligned_lengths[i]` come from the same input record for every index. -/
theorem C10_names_lengths_aligned (sequences : List SequenceWindow)
    (taxOpt : Option (List (String × String))) (uf : Bool) (infos : List Info)
    (h : seqs_to_counts_and_taxonomy sequences taxOpt uf = .ok infos) :
    ∀ info ∈ infos,
      info.count = info.names.length ∧
      info.count = info.aligned_lengths.length ∧
      info.names = (groupReads sequences info.seq).map SequenceWindow.name ∧
      info.aligned_lengths
        = (groupReads sequences info.seq).map SequenceWindow.aligned_length := by
  intro info hinfo
  obtain ⟨g, hg, hgi⟩ := forall₂_mem_right
    (seqs_to_counts_ok sequences taxOpt uf infos h) info hinfo
  obtain ⟨seq, ci⟩ := g
  obtain ⟨hseq, hcount, hnames, _, hlens⟩ := emitInfo_ok uf (seq, ci) info hgi
  have hlk : (collectGroups taxOpt sequences).lookup seq = some ci :=
    lookup_of_mem_nodup _ (nodupKeys_collectGroups taxOpt sequences) seq ci hg
  have hinv := groupsInv_collectGroups taxOpt sequences seq
  rw [hlk] at hinv
  obtain ⟨hin, hil, hic⟩ := hinv
  refine ⟨?_, ?_, ?_, ?_⟩
  · rw [hcount, hnames, hic, hin]; simp
  · rw [hcount, hlens, hic, hil]; simp
  · rw [hnames, hseq, hin]
  · rw [hlens, hseq, hil]

/-- Witness for C10 at a concrete three-read input, checked on its first
emitted record. -/
theorem C10_names_lengths_aligned_witness :
    ({ seq := "ACGT", count := 2, taxonomy := "a", names := ["r1", "r2"],
       coverage := 2, aligned_lengths := [4, 3] } : Info).count
      = (["r1", "r2"] : List String).length ∧
    ({ seq := "ACGT", count := 2, taxonomy := "a", names := ["r1", "r2"],
       coverage := 2, aligned_lengths := [4, 3] } : Info).count
      = ([4, 3] : List Nat).length ∧
    ({ seq := "ACGT", count := 2, taxonomy := "a", names := ["r1", "r2"],
       coverage := 2, aligned_lengths := [4, 3] } : Info).names
      = (groupReads
          [⟨"r1", "ACGT", 1, 4⟩, ⟨"r2", "ACGT", 1, 3⟩, ⟨"r3", "TT", 1, 2⟩]
          "ACGT").map SequenceWindow.name ∧
    ({ seq := "ACGT", count := 2, taxonomy := "a", names := ["r1", "r2"],
       coverage := 2, aligned_lengths := [4, 3] } : Info).aligned_lengths
      = (groupReads
          [⟨"r1", "ACGT", 1, 4⟩, ⟨"r2", "ACGT", 1, 3⟩, ⟨"r3", "TT", 1, 2⟩]
          "ACGT").map SequenceWindow.aligned_length :=
  C10_names_lengths_aligned
    [⟨"r1", "ACGT", 1, 4⟩, ⟨"r2", "ACGT", 1, 3⟩, ⟨"r3", "TT", 1, 2⟩]
    (some [("r1", "a")]) false
    [{ seq := "ACGT", count := 2, taxonomy := "a", names := ["r1", "r2"],
       coverage := 2, aligned_lengths := [4, 3] },
     { seq := "TT", count := 1, taxonomy := "", names := ["r3"],
       coverage := 1, aligned_lengths := [2] }]
    (by decide) _ (by decide)

/-! ## The jplace placement rewriter (`_write_jplace_from_infos`) -/

/-- JSON values, as produced by `json.load`.  Numbers are embedded as
integers (jplace versions and `nm` multiplicities are integral). -/
inductive Json where
  | null : Json
  | bool (b : Bool) : Json
  | num (n : Int) : Json
  | str (s : String) : Json
  | arr (elems : List Json) : Json
  | obj (fields : List (String × Json)) : Json

/-- The regex `re.sub(u'_\d+$', '', name)` applied after `un_orfm_name`:
drop one trailing `_<digits>` group (with at least one digit), if present. -/
def stripFrameSuffix (s : String) : String :=
  match s.data.reverse.dropWhile Char.isDigit,
      s.data.reverse.takeWhile Char.isDigit with
  | '_' :: rest, _ :: _ => String.mk rest.reverse
  | _, _ => s

/-- Python dict assignment `d[k] = v`: replace in place if present, else
append (insertion order). -/
def setAssoc {α : Type} (l : List (String × α)) (k : String) (v : α) :
    List (String × α) :=
  match l with
  | [] => [(k, v)]
  | (k', v') :: rest =>
    if k' = k then (k, v) :: rest else (k', v') :: setAssoc rest k v

/-- `sequence_to_count[sequence] += count` with `KeyError → = count`. -/
def bumpCount (l : List (String × Int)) (k : String) (c : Int) :
    List (String × Int) :=
  match l with
  | [] => [(k, c)]
  | (k', v) :: rest =>
    if k' = k then (k', v + c) :: rest else (k', v) :: bumpCount rest k c

/-- The `name_to_info` dictionary: for each info in order, for each of its
names in order, `name_to_info[name] = info` (a later binding overwrites). -/
def buildNameToInfo (infos : List Info) : List (String × Info) :=
  infos.foldl (fun acc info => info.names.foldl (fun a n => setAssoc a n info) acc) []

/-- Mutable state of the placement loop: `sequence_to_count` and
`sequence_to_example_p`. -/
structure RewriteState where
  counts : List (String × Int)
  examples : List (String × Json)

/-- One `name_and_count` iteration of the inner loop of
`_write_jplace_from_infos`.  An entry that is not a two-element
`[name, count]` list raises (`len(...) != 2` check, or the regex/lookup/
arithmetic applied to operands of the wrong type); a normalized name absent
from `name_to_info` raises `KeyError`; `placement['p']` is read only when
the entry's read is its OTU's first-encountered contributor.
The embedding takes the external `OrfMUtils.un_orfm_name` (whose module is
not part of the verified source) as the parameter `unOrfm`. -/
def processEntry (n2i : List (String × Info)) (pFields : List (String × Json))
    (unOrfm : String → String) (st : RewriteState) (entry : Json) :
    Except String RewriteState :=
  match entry with
  | .arr [.str name, .num count] =>
    match n2i.lookup (stripFrameSuffix (unOrfm name)) with
    | none => .error "KeyError: read name absent from the read-to-OTU index"
    | some info =>
      if info.names.head? = some (stripFrameSuffix (unOrfm name)) then
        match pFields.lookup "p" with
        | some pv =>
          .ok ⟨bumpCount st.counts info.seq count, setAssoc st.examples info.seq pv⟩
        | none => .error "KeyError: p"
      else
        .ok ⟨bumpCount st.counts info.seq count, st.examples⟩
  | _ => .error "Unexpected jplace format detected in nm"

/-- One `placement` iteration of the outer loop: a placement that is not a
JSON object, or has no `nm` field, is a fatal format error. -/
def processPlacement (n2i : List (String × Info)) (unOrfm : String → String)
    (st : RewriteState) (placement : Json) : Except String RewriteState :=
  match placement with
  | .obj pf =>
    match pf.lookup "nm" with
    | none => .error "Unexpected jplace format detected in placement"
    | some (.arr entries) => entries.foldlM (processEntry n2i pf unOrfm) st
    | some _ => .error "nm is not a placement-entry array"
  | _ => .error "placement is not a JSON object"

/-- `SearchPipe._write_jplace_from_infos` (the pure part: from the parsed
input document and the `infos` to the document handed to `json.dump`;
an exception means nothing is written). -/
def write_jplace_from_infos (unOrfm : String → String) (doc : Json)
    (infos : List Info) : Except String Json :=
  match doc with
  | .obj fields =>
    match fields.lookup "version" with
    | some (.num v) =>
      if v = 3 then
        match fields.lookup "placements" with
        | some (.arr ps) =>
          match ps.foldlM (processPlacement (buildNameToInfo infos) unOrfm)
              (⟨[], []⟩ : RewriteState) with
          | .error e => .error e
          | .ok st =>
            let new_placements := st.examples.map (fun p =>
              (p.1, Json.obj
                [("nm", Json.arr [Json.arr
                    [Json.str p.1, Json.num ((st.counts.lookup p.1).getD 0)]]),
                 ("p", p.2)]))
            .ok (Json.obj (setAssoc fields "placements" (Json.obj new_placements)))
        | some _ => .error "placements is not an array"
        | none => .error "KeyError: placements"
      else .error "SingleM currently only works with jplace version 3 files, sorry"
    | some _ => .error "SingleM currently only works with jplace version 3 files, sorry"
    | none => .error "KeyError: version"
  | _ => .error "placement document is not a JSON object"

/-! ## Measurement functions over placement documents -/

/-- The `nm` entry list of a placement value (empty for other shapes). -/
def nmEntries (p : Json) : List Json :=
  match p with
  | .obj pf =>
    match pf.lookup "nm" with
    | some (.arr es) => es
    | _ => []
  | _ => []

/-- The multiplicity of one `nm` entry (0 for ill-formed entries). -/
def entryCount (e : Json) : Int :=
  match e with
  | .arr [_, .num c] => c
  | _ => 0

/-- The normalized read name of one well-formed `nm` entry. -/
def entryName (unOrfm : String → String) (e : Json) : Option String :=
  match e with
  | .arr [.str name, .num _] => some (stripFrameSuffix (unOrfm name))
  | _ => none

/-- Sum of the `nm` multiplicities of one placement value. -/
def placementNmSum (p : Json) : Int :=
  ((nmEntries p).map entryCount).sum

/-- Sum of all `nm` multiplicities of an input document (whose `placements`
is an array). -/
def inputNmSum (doc : Json) : Int :=
  match doc with
  | .obj fields =>
    match fields.lookup "placements" with
    | some (.arr ps) => (ps.map placementNmSum).sum
    | _ => 0
  | _ => 0

/-- Sum of all `nm` multiplicities of a rewritten document (whose
`placements` is an object keyed by OTU sequence). -/
def outputNmSum (doc : Json) : Int :=
  match doc with
  | .obj fields =>
    match fields.lookup "placements" with
    | some (.obj entries) => (entries.map (fun q => placementNmSum q.2)).sum
    | _ => 0
  | _ => 0

/-- Whether a document's `placements` field is a JSON **array** (the shape
of the input format). -/
def placementsIsArray (doc : Json) : Bool :=
  match doc with
  | .obj fields =>
    match fields.lookup "placements" with
    | some (.arr _) => true
    | _ => false
  | _ => false

/-- Whether a document's `placements` field is a JSON **object**. -/
def placementsIsObject (doc : Json) : Bool :=
  match doc with
  | .obj fields =>
    match fields.lookup "placements" with
    | some (.obj _) => true
    | _ => false
  | _ => false

/-- All normalized read names occurring in a document's `nm` entries. -/
def docNames (unOrfm : String → String) (doc : Json) : List String :=
  match doc with
  | .obj fields =>
    match fields.lookup "placements" with
    | some (.arr ps) => (ps.map (fun p => (nmEntries p).filterMap (entryName unOrfm))).flatten
    | _ => []
  | _ => []

/-! ## Error behaviour of the rewriter (C6) -/

lemma foldlM_error_of_mem {σ α : Type} (f : σ → α → Except String σ)
    (l : List α) (a : α) (ha : a ∈ l)
    (hf : ∀ st, ∃ e, f st a = .error e) :
    ∀ st, ∃ e, l.foldlM f st = .error e := by
  induction l with
  | nil => cases ha
  | cons x xs ih =>
    intro st
    rcases List.mem_cons.mp ha with h | h
    · subst h
      obtain ⟨e, he⟩ := hf st
      exact ⟨e, by simp [List.foldlM_cons, he, Bind.bind, Except.bind]⟩
    · cases hx : f st x with
      | error e => exact ⟨e, by simp [List.foldlM_cons, hx, Bind.bind, Except.bind]⟩
      | ok st1 =>
        obtain ⟨e, he⟩ := ih h st1
        exact ⟨e, by simp [List.foldlM_cons, hx, he, Bind.bind, Except.bind]⟩

/-- C6: a document whose `version` field is not the number 3 (or is absent
or non-numeric), and a document one of whose placements is an object with no
`nm` field, are rejected: the rewrite returns an error and no output
document is produced (the source's single `json.dump` is never reached). -/
theorem C6_fatal_no_output (unOrfm : String → String)
    (fields : List (String × Json)) (infos : List Info) :
    ((∀ n, fields.lookup "version" = some (Json.num n) → n ≠ 3) →
      ∃ e, write_jplace_from_infos unOrfm (Json.obj fields) infos = .error e) ∧
    (∀ ps pf, fields.lookup "placements" = some (Json.arr ps) →
      Json.obj pf ∈ ps → pf.lookup "nm" = none →
      ∃ e, write_jplace_from_infos unOrfm (Json.obj fields) infos = .error e) := by
  constructor
  · intro hv
    cases hlv : fields.lookup "version" with
    | none =>
      exact ⟨"KeyError: version", by simp [write_jplace_from_infos, hlv]⟩
    | some v =>
      cases v with
      | num n =>
        have hn := hv n hlv
        exact ⟨"SingleM currently only works with jplace version 3 files, sorry",
          by simp [write_jplace_from_infos, hlv, hn]⟩
      | null =>
        exact ⟨"SingleM currently only works with jplace version 3 files, sorry",
          by simp [write_jplace_from_infos, hlv]⟩
      | bool b =>
        exact ⟨"SingleM currently only works with jplace version 3 files, sorry",
          by simp [write_jplace_from_infos, hlv]⟩
      | str s =>
        exact ⟨"SingleM currently only works with jplace version 3 files, sorry",
          by simp [write_jplace_from_infos, hlv]⟩
      | arr es =>
        exact ⟨"SingleM currently only works with jplace version 3 files, sorry",
          by simp [write_jplace_from_infos, hlv]⟩
      | obj fs =>
        exact ⟨"SingleM currently only works with jplace version 3 files, sorry",
          by simp [write_jplace_from_infos, hlv]⟩
  · intro ps pf hps hmem hnm
    have herrp : ∀ st, ∃ e,
        processPlacement (buildNameToInfo infos) unOrfm st (Json.obj pf)
          = .error e := by
      intro st
      exact ⟨"Unexpected jplace format detected in placement",
        by simp [processPlacement, hnm]⟩
    cases hlv : fields.lookup "version" with
    | none =>
      exact ⟨"KeyError: version", by simp [write_jplace_from_infos, hlv]⟩
    | some v =>
      cases v with
      | num n =>
        by_cases hn : n = 3
        · subst hn
          obtain ⟨e, he⟩ :=
            foldlM_error_of_mem _ ps (Json.obj pf) hmem herrp ⟨[], []⟩
          exact ⟨e, by simp [write_jplace_from_infos, hlv, hps, he]⟩
        · exact ⟨"SingleM currently only works with jplace version 3 files, sorry",
            by simp [write_jplace_from_infos, hlv, hn]⟩
      | null =>
        exact ⟨"SingleM currently only works with jplace version 3 files, sorry",
          by simp [write_jplace_from_infos, hlv]⟩
      | bool b =>
        exact ⟨"SingleM currently only works with jplace version 3 files, sorry",
          by simp [write_jplace_from_infos, hlv]⟩
      | str s =>
        exact ⟨"SingleM currently only works with jplace version 3 files, sorry",
          by simp [write_jplace_from_infos, hlv]⟩
      | arr es =>
        exact ⟨"SingleM currently only works with jplace version 3 files, sorry",
          by simp [write_jplace_from_infos, hlv]⟩
      | obj fs =>
        exact ⟨"SingleM currently only works with jplace version 3 files, sorry",
          by simp [write_jplace_from_infos, hlv]⟩

/-- Witness for C6: a version-4 document is rejected, and a version-3
document with an `nm`-less placement is rejected. -/
theorem C6_fatal_no_output_witness :
    ((∀ n, ([(("version" : String), Json.num 4)] : List (String × Json)).lookup "version"
        = some (Json.num n) → n ≠ 3) ∧
      ∃ e, write_jplace_from_infos id (Json.obj [("version", Json.num 4)]) []
        = .error e) ∧
    (([(("version" : String), Json.num 3),
       ("placements", Json.arr [Json.obj [("p", Json.arr [])]])] :
        List (String × Json)).lookup "placements"
          = some (Json.arr [Json.obj [("p", Json.arr [])]]) ∧
      ∃ e, write_jplace_from_infos id
        (Json.obj [("version", Json.num 3),
          ("placements", Json.arr [Json.obj [("p", Json.arr [])]])]) []
        = .error e) := by
  constructor
  · constructor
    · intro n hn
      simp [List.lookup] at hn
      omega
    · exact (C6_fatal_no_output id [("version", Json.num 4)] []).1 (by
        intro n hn
        simp [List.lookup] at hn
        omega)
  · constructor
    · rfl
    · exact (C6_fatal_no_output id
        [("version", Json.num 3),
         ("placements", Json.arr [Json.obj [("p", Json.arr [])]])] []).2
        [Json.obj [("p", Json.arr [])]] [("p", Json.arr [])] rfl
        (List.mem_singleton.mpr rfl) rfl

/-- C9: both embedded operations are pure functions of their explicit
inputs, so identical inputs give identical (byte-identical once serialized)
outputs across repeated runs. -/
theorem C9_determinism :
    (∀ s₁ s₂ t₁ t₂ u₁ u₂, s₁ = s₂ → t₁ = t₂ → u₁ = u₂ →
      seqs_to_counts_and_taxonomy s₁ t₁ u₁ = seqs_to_counts_and_taxonomy s₂ t₂ u₂) ∧
    (∀ f₁ f₂ d₁ d₂ i₁ i₂, f₁ = f₂ → d₁ = d₂ → i₁ = i₂ →
      write_jplace_from_infos f₁ d₁ i₁ = write_jplace_from_infos f₂ d₂ i₂) := by
  refine ⟨?_, ?_⟩ <;> (intros; subst_vars; rfl)

/-- Witness for C9 at concrete inputs. -/
theorem C9_determinism_witness :
    seqs_to_counts_and_taxonomy [⟨"r1", "ACGT", 1, 4⟩] none false
      = seqs_to_counts_and_taxonomy [⟨"r1", "ACGT", 1, 4⟩] none false :=
  (C9_determinism).1 _ _ _ _ _ _ rfl rfl rfl

/-! ## Structure of successful rewrites (C2, C3) -/

/-- The keys of an association list. -/
def keysOf {α : Type} (l : List (String × α)) : List String := l.map Prod.fst

/-- The total of the values of `sequence_to_count`. -/
def sumInt (l : List (String × Int)) : Int := (l.map Prod.snd).sum

lemma keys_setAssoc {α : Type} (l : List (String × α)) (k : String) (v : α) :
    keysOf (setAssoc l k v) =
      if k ∈ keysOf l then keysOf l else keysOf l ++ [k] := by
  induction l with
  | nil => simp [setAssoc, keysOf]
  | cons p rest ih =>
    obtain ⟨k', v'⟩ := p
    by_cases h : k' = k
    · simp [setAssoc, h, keysOf]
    · have hkk : ¬ k = k' := fun he => h he.symm
      have ih' := ih
      simp only [keysOf] at ih'
      by_cases hmem : k ∈ (keysOf rest : List String)
      · have hm' := hmem
        simp only [keysOf] at hm'
        simp [setAssoc, h, keysOf, hkk, hm', ih']
      · have hm' := hmem
        simp only [keysOf] at hm'
        simp [setAssoc, h, keysOf, hkk, hm', ih']

lemma keys_bumpCount (l : List (String × Int)) (k : String) (c : Int) :
    keysOf (bumpCount l k c) =
      if k ∈ keysOf l then keysOf l else keysOf l ++ [k] := by
  induction l with
  | nil => simp [bumpCount, keysOf]
  | cons p rest ih =>
    obtain ⟨k', v'⟩ := p
    by_cases h : k' = k
    · simp [bumpCount, h, keysOf]
    · have hkk : ¬ k = k' := fun he => h he.symm
      have ih' := ih
      simp only [keysOf] at ih'
      by_cases hmem : k ∈ (keysOf rest : List String)
      · have hm' := hmem
        simp only [keysOf] at hm'
        simp [bumpCount, h, keysOf, hkk, hm', ih']
      · have hm' := hmem
        simp only [keysOf] at hm'
        simp [bumpCount, h, keysOf, hkk, hm', ih']

lemma mem_keys_setAssoc {α : Type} (l : List (String × α)) (k : String)
    (v : α) (k' : String) :
    k' ∈ keysOf (setAssoc l k v) ↔ k' ∈ keysOf l ∨ k' = k := by
  rw [keys_setAssoc]
  by_cases hmem : k ∈ keysOf l
  · simp only [hmem, if_true]
    constructor
    · exact Or.inl
    · rintro (h | h)
      · exact h
      · subst h; exact hmem
  · simp [hmem]

lemma mem_keys_bumpCount (l : List (String × Int)) (k : String) (c : Int)
    (k' : String) :
    k' ∈ keysOf (bumpCount l k c) ↔ k' ∈ keysOf l ∨ k' = k := by
  rw [keys_bumpCount]
  by_cases hmem : k ∈ keysOf l
  · simp only [hmem, if_true]
    constructor
    · exact Or.inl
    · rintro (h | h)
      · exact h
      · subst h; exact hmem
  · simp [hmem]

lemma nodup_keys_setAssoc {α : Type} (l : List (String × α)) (k : String)
    (v : α) (h : (keysOf l).Nodup) : (keysOf (setAssoc l k v)).Nodup := by
  rw [keys_setAssoc]
  by_cases hmem : k ∈ keysOf l
  · simpa [hmem] using h
  · simp [hmem, List.nodup_append, h]

lemma nodup_keys_bumpCount (l : List (String × Int)) (k : String) (c : Int)
    (h : (keysOf l).Nodup) : (keysOf (bumpCount l k c)).Nodup := by
  rw [keys_bumpCount]
  by_cases hmem : k ∈ keysOf l
  · simpa [hmem] using h
  · simp [hmem, List.nodup_append, h]

lemma sumInt_bumpCount (l : List (String × Int)) (k : String) (c : Int) :
    sumInt (bumpCount l k c) = sumInt l + c := by
  induction l with
  | nil => simp [bumpCount, sumInt]
  | cons p rest ih =>
    obtain ⟨k', v⟩ := p
    by_cases h : k' = k
    · simp [bumpCount, h, sumInt]
      omega
    · simp [bumpCount, h, sumInt] at *
      omega

lemma lookup_setAssoc {α : Type} (l : List (String × α)) (k : String) (v : α)
    (k' : String) :
    (setAssoc l k v).lookup k' = if k' = k then some v else l.lookup k' := by
  induction l with
  | nil =>
    by_cases h : k' = k
    · simp [setAssoc, List.lookup, h]
    · simp [setAssoc, List.lookup, h, show (k' == k) = false by simpa using h]
  | cons p rest ih =>
    obtain ⟨k0, v0⟩ := p
    by_cases hk0 : k0 = k
    · subst hk0
      by_cases h : k' = k0
      · simp [setAssoc, List.lookup, h]
      · simp [setAssoc, List.lookup, h,
          show (k' == k0) = false by simpa using h]
    · by_cases h : k' = k0
      · subst h
        have hne : ¬ k' = k := fun he => hk0 he
        simp [setAssoc, List.lookup, hk0, hne]
      · simp [setAssoc, List.lookup, hk0, h, ih,
          show (k' == k0) = false by simpa using h]

/-- Well-formedness of the loop state: distinct keys in both dictionaries,
and every sequence with a representative placement also has a count. -/
def StateWF (st : RewriteState) : Prop :=
  (keysOf st.counts).Nodup ∧ (keysOf st.examples).Nodup ∧
  ∀ k ∈ keysOf st.examples, k ∈ keysOf st.counts

lemma processEntry_ok_inv {n2i : List (String × Info)}
    {pf : List (String × Json)} {unOrfm : String → String}
    {st : RewriteState} {e : Json} {st' : RewriteState}
    (h : processEntry n2i pf unOrfm st e = .ok st') :
    ∃ name count info,
      e = Json.arr [Json.str name, Json.num count] ∧
      n2i.lookup (stripFrameSuffix (unOrfm name)) = some info ∧
      st'.counts = bumpCount st.counts info.seq count ∧
      ((info.names.head? = some (stripFrameSuffix (unOrfm name)) ∧
        ∃ pv, pf.lookup "p" = some pv ∧
          st'.examples = setAssoc st.examples info.seq pv) ∨
       (¬ info.names.head? = some (stripFrameSuffix (unOrfm name)) ∧
        st'.examples = st.examples)) := by
  unfold processEntry at h
  split at h
  next name count =>
    cases hlook : n2i.lookup (stripFrameSuffix (unOrfm name)) with
    | none => rw [hlook] at h; simp at h
    | some info =>
      rw [hlook] at h
      by_cases hhead : info.names.head? = some (stripFrameSuffix (unOrfm name))
      · simp only [if_pos hhead] at h
        cases hp : pf.lookup "p" with
        | none => rw [hp] at h; simp at h
        | some pv =>
          rw [hp] at h
          simp only [Except.ok.injEq] at h
          subst h
          exact ⟨name, count, info, rfl, hlook, rfl, Or.inl ⟨hhead, pv, rfl, rfl⟩⟩
      · simp only [if_neg hhead] at h
        simp only [Except.ok.injEq] at h
        subst h
        exact ⟨name, count, info, rfl, hlook, rfl, Or.inr ⟨hhead, rfl⟩⟩
  next => cases h

lemma processPlacement_ok_inv {n2i : List (String × Info)}
    {unOrfm : String → String} {st : RewriteState} {p : Json}
    {st' : RewriteState}
    (h : processPlacement n2i unOrfm st p = .ok st') :
    ∃ pf entries, p = Json.obj pf ∧
      pf.lookup "nm" = some (Json.arr entries) ∧
      nmEntries p = entries ∧
      entries.foldlM (processEntry n2i pf unOrfm) st = .ok st' := by
  unfold processPlacement at h
  split at h
  next pf =>
    split at h
    next hnm => cases h
    next entries hnm =>
      exact ⟨pf, entries, rfl, hnm, by simp [nmEntries, hnm], h⟩
    next v hnm hne => cases h
  next => cases h

lemma write_jplace_ok_inv {unOrfm : String → String} {doc : Json}
    {infos : List Info} {out : Json}
    (h : write_jplace_from_infos unOrfm doc infos = .ok out) :
    ∃ fields ps st,
      doc = Json.obj fields ∧
      fields.lookup "version" = some (Json.num 3) ∧
      fields.lookup "placements" = some (Json.arr ps) ∧
      ps.foldlM (processPlacement (buildNameToInfo infos) unOrfm)
        (⟨[], []⟩ : RewriteState) = .ok st ∧
      out = Json.obj (setAssoc fields "placements" (Json.obj
        (st.examples.map (fun p =>
          (p.1, Json.obj
            [("nm", Json.arr [Json.arr
                [Json.str p.1, Json.num ((st.counts.lookup p.1).getD 0)]]),
             ("p", p.2)]))))) := by
  unfold write_jplace_from_infos at h
  split at h
  next fields =>
    split at h
    next n hver =>
      split at h
      next hn3 =>
        subst hn3
        split at h
        next ps hpl =>
          split at h
          next e hfold => cases h
          next st hfold =>
            simp only [Except.ok.injEq] at h
            subst h
            exact ⟨fields, ps, st, rfl, hver, hpl, hfold, rfl⟩
        next v hpl hne => cases h
        next hpl => cases h
      next hn3 => cases h
    next v hver hnum => cases h
    next hver => cases h
  next => cases h

lemma entriesFold_inv (n2i : List (String × Info)) (pf : List (String × Json))
    (unOrfm : String → String) :
    ∀ (entries : List Json) (st st' : RewriteState),
      entries.foldlM (processEntry n2i pf unOrfm) st = .ok st' →
      (sumInt st'.counts = sumInt st.counts + (entries.map entryCount).sum) ∧
      (∀ k, k ∈ keysOf st'.counts ↔ k ∈ keysOf st.counts ∨
        ∃ r ∈ entries.filterMap (entryName unOrfm), ∃ info,
          n2i.lookup r = some info ∧ info.seq = k) ∧
      (∀ k, k ∈ keysOf st'.examples ↔ k ∈ keysOf st.examples ∨
        ∃ r ∈ entries.filterMap (entryName unOrfm), ∃ info,
          n2i.lookup r = some info ∧ info.seq = k ∧
          info.names.head? = some r) ∧
      (StateWF st → StateWF st') := by
  intro entries
  induction entries with
  | nil =>
    intro st st' h
    simp only [List.foldlM_nil, pure, Except.pure, Except.ok.injEq] at h
    subst h
    refine ⟨by simp, ?_, ?_, fun hwf => hwf⟩ <;> intro k <;> simp
  | cons e es ih =>
    intro st st' h
    rw [List.foldlM_cons] at h
    cases hstep : processEntry n2i pf unOrfm st e with
    | error e0 => rw [hstep] at h; simp [Bind.bind, Except.bind] at h
    | ok st1 =>
      rw [hstep] at h
      simp only [Bind.bind, Except.bind] at h
      obtain ⟨hsum, hck, hek, hwf⟩ := ih st1 st' h
      obtain ⟨name, count, info, he, hlook, hcounts, hex⟩ :=
        processEntry_ok_inv hstep
      subst he
      have hrn : entryName unOrfm (Json.arr [Json.str name, Json.num count])
          = some (stripFrameSuffix (unOrfm name)) := rfl
      have hcnt : entryCount (Json.arr [Json.str name, Json.num count])
          = count := rfl
      have hfm : (Json.arr [Json.str name, Json.num count] :: es).filterMap
            (entryName unOrfm)
          = stripFrameSuffix (unOrfm name) :: es.filterMap (entryName unOrfm) := by
        simp [List.filterMap_cons, hrn]
      refine ⟨?_, ?_, ?_, ?_⟩
      · rw [hsum, hcounts, sumInt_bumpCount]
        simp [hcnt]
        omega
      · intro k
        rw [hck k, hfm]
        constructor
        · rintro (hk | ⟨r, hr, info', hlook', hseq'⟩)
          · rw [hcounts, mem_keys_bumpCount] at hk
            rcases hk with hk | hk
            · exact Or.inl hk
            · exact Or.inr ⟨stripFrameSuffix (unOrfm name),
                List.mem_cons_self _ _, info, hlook, hk.symm⟩
          · exact Or.inr ⟨r, List.mem_cons_of_mem _ hr, info', hlook', hseq'⟩
        · rintro (hk | ⟨r, hr, info', hlook', hseq'⟩)
          · refine Or.inl ?_
            rw [hcounts, mem_keys_bumpCount]
            exact Or.inl hk
          · rcases List.mem_cons.mp hr with hr | hr
            · subst hr
              refine Or.inl ?_
              rw [hcounts, mem_keys_bumpCount]
              rw [hlook] at hlook'
              cases hlook'
              exact Or.inr hseq'.symm
            · exact Or.inr ⟨r, hr, info', hlook', hseq'⟩
      · intro k
        rw [hek k, hfm]
        constructor
        · rintro (hk | ⟨r, hr, info', hlook', hseq', hhead'⟩)
          · rcases hex with ⟨hhead, pv, hp, hexeq⟩ | ⟨hhead, hexeq⟩
            · rw [hexeq, mem_keys_setAssoc] at hk
              rcases hk with hk | hk
              · exact Or.inl hk
              · exact Or.inr ⟨stripFrameSuffix (unOrfm name),
                  List.mem_cons_self _ _, info, hlook, hk.symm, hhead⟩
            · rw [hexeq] at hk
              exact Or.inl hk
          · exact Or.inr ⟨r, List.mem_cons_of_mem _ hr, info', hlook', hseq', hhead'⟩
        · rintro (hk | ⟨r, hr, info', hlook', hseq', hhead'⟩)
          · refine Or.inl ?_
            rcases hex with ⟨hhead, pv, hp, hexeq⟩ | ⟨hhead, hexeq⟩
            · rw [hexeq, mem_keys_setAssoc]
              exact Or.inl hk
            · rw [hexeq]
              exact hk
          · rcases List.mem_cons.mp hr with hr | hr
            · subst hr
              rw [hlook] at hlook'
              cases hlook'
              rcases hex with ⟨hhead, pv, hp, hexeq⟩ | ⟨hhead, hexeq⟩
              · refine Or.inl ?_
                rw [hexeq, mem_keys_setAssoc]
                exact Or.inr hseq'.symm
              · exact absurd hhead' hhead
            · exact Or.inr ⟨r, hr, info', hlook', hseq', hhead'⟩
      · intro hwf0
        refine hwf ⟨?_, ?_, ?_⟩
        · rw [hcounts]
          exact nodup_keys_bumpCount _ _ _ hwf0.1
        · rcases hex with ⟨_, pv, _, hexeq⟩ | ⟨_, hexeq⟩
          · rw [hexeq]
            exact nodup_keys_setAssoc _ _ _ hwf0.2.1
          · rw [hexeq]
            exact hwf0.2.1
        · intro k hk
          rw [hcounts, mem_keys_bumpCount]
          rcases hex with ⟨_, pv, _, hexeq⟩ | ⟨_, hexeq⟩
          · rw [hexeq, mem_keys_setAssoc] at hk
            rcases hk with hk | hk
            · exact Or.inl (hwf0.2.2 k hk)
            · exact Or.inr hk
          · rw [hexeq] at hk
            exact Or.inl (hwf0.2.2 k hk)

lemma placementsFold_inv (n2i : List (String × Info)) (unOrfm : String → String) :
    ∀ (ps : List Json) (st st' : RewriteState),
      ps.foldlM (processPlacement n2i unOrfm) st = .ok st' →
      (sumInt st'.counts = sumInt st.counts + (ps.map placementNmSum).sum) ∧
      (∀ k, k ∈ keysOf st'.counts ↔ k ∈ keysOf st.counts ∨
        ∃ r ∈ (ps.map (fun p => (nmEntries p).filterMap (entryName unOrfm))).flatten,
          ∃ info, n2i.lookup r = some info ∧ info.seq = k) ∧
      (∀ k, k ∈ keysOf st'.examples ↔ k ∈ keysOf st.examples ∨
        ∃ r ∈ (ps.map (fun p => (nmEntries p).filterMap (entryName unOrfm))).flatten,
          ∃ info, n2i.lookup r = some info ∧ info.seq = k ∧
            info.names.head? = some r) ∧
      (StateWF st → StateWF st') := by
  intro ps
  induction ps with
  | nil =>
    intro st st' h
    simp only [List.foldlM_nil, pure, Except.pure, Except.ok.injEq] at h
    subst h
    refine ⟨by simp, ?_, ?_, fun hwf => hwf⟩ <;> intro k <;> simp
  | cons p prest ih =>
    intro st st' h
    rw [List.foldlM_cons] at h
    cases hstep : processPlacement n2i unOrfm st p with
    | error e0 => rw [hstep] at h; simp [Bind.bind, Except.bind] at h
    | ok st1 =>
      rw [hstep] at h
      simp only [Bind.bind, Except.bind] at h
      obtain ⟨hsum, hck, hek, hwf⟩ := ih st1 st' h
      obtain ⟨pf, entries, hp, hnm, hents, hfold⟩ := processPlacement_ok_inv hstep
      obtain ⟨hsum1, hck1, hek1, hwf1⟩ := entriesFold_inv n2i pf unOrfm entries st st1 hfold
      have hflat :
          ((p :: prest).map (fun q => (nmEntries q).filterMap (entryName unOrfm))).flatten
            = entries.filterMap (entryName unOrfm) ++
              (prest.map (fun q => (nmEntries q).filterMap (entryName unOrfm))).flatten := by
        simp [hents]
      have hpsum : placementNmSum p = (entries.map entryCount).sum := by
        simp [placementNmSum, hents]
      refine ⟨?_, ?_, ?_, fun h0 => hwf (hwf1 h0)⟩
      · rw [hsum, hsum1]
        simp only [List.map_cons, List.sum_cons, hpsum]
        omega
      · intro k
        rw [hck k, hck1 k, hflat]
        constructor
        · rintro ((hk | ⟨r, hr, info', hl', hs'⟩) | ⟨r, hr, info', hl', hs'⟩)
          · exact Or.inl hk
          · exact Or.inr ⟨r, List.mem_append.mpr (Or.inl hr), info', hl', hs'⟩
          · exact Or.inr ⟨r, List.mem_append.mpr (Or.inr hr), info', hl', hs'⟩
        · rintro (hk | ⟨r, hr, info', hl', hs'⟩)
          · exact Or.inl (Or.inl hk)
          · rcases List.mem_append.mp hr with hr | hr
            · exact Or.inl (Or.inr ⟨r, hr, info', hl', hs'⟩)
            · exact Or.inr ⟨r, hr, info', hl', hs'⟩
      · intro k
        rw [hek k, hek1 k, hflat]
        constructor
        · rintro ((hk | ⟨r, hr, info', hl', hs', hh'⟩) | ⟨r, hr, info', hl', hs', hh'⟩)
          · exact Or.inl hk
          · exact Or.inr ⟨r, List.mem_append.mpr (Or.inl hr), info', hl', hs', hh'⟩
          · exact Or.inr ⟨r, List.mem_append.mpr (Or.inr hr), info', hl', hs', hh'⟩
        · rintro (hk | ⟨r, hr, info', hl', hs', hh'⟩)
          · exact Or.inl (Or.inl hk)
          · rcases List.mem_append.mp hr with hr | hr
            · exact Or.inl (Or.inr ⟨r, hr, info', hl', hs', hh'⟩)
            · exact Or.inr ⟨r, hr, info', hl', hs', hh'⟩

/-! ## Per-OTU accumulated values of a successful rewrite -/

lemma lookup_bumpCount (l : List (String × Int)) (k : String) (c : Int)
    (k' : String) :
    (bumpCount l k c).lookup k' =
      if k' = k then some ((l.lookup k).getD 0 + c) else l.lookup k' := by
  induction l with
  | nil =>
    by_cases h : k' = k
    · simp [bumpCount, List.lookup, h]
    · simp [bumpCount, List.lookup, h, show (k' == k) = false by simpa using h]
  | cons p rest ih =>
    obtain ⟨k0, v0⟩ := p
    by_cases hk0 : k0 = k
    · subst hk0
      by_cases h : k' = k0
      · simp [bumpCount, List.lookup, h]
      · simp [bumpCount, List.lookup, h,
          show (k' == k0) = false by simpa using h]
    · by_cases h : k' = k0
      · subst h
        have hne : ¬ k' = k := fun he => hk0 he
        simp [bumpCount, List.lookup, hk0, hne]
      · simp [bumpCount, List.lookup, hk0, h, ih,
          show (k' == k0) = false by simpa using h,
          show (k == k0) = false by simpa using fun he : k = k0 => hk0 he.symm]

lemma mem_setAssoc_inv {α : Type} (l : List (String × α)) (k0 : String)
    (v0 : α) (k : String) (v : α) (h : (k, v) ∈ setAssoc l k0 v0) :
    (k, v) ∈ l ∨ (k = k0 ∧ v = v0) := by
  induction l with
  | nil =>
    simp only [setAssoc, List.mem_singleton] at h
    right
    simpa [Prod.ext_iff] using h
  | cons p rest ih =>
    obtain ⟨k1, v1⟩ := p
    by_cases h1 : k1 = k0
    · simp only [setAssoc, if_pos h1] at h
      rcases List.mem_cons.mp h with h | h
      · right
        simpa [Prod.ext_iff] using h
      · exact Or.inl (List.mem_cons_of_mem _ h)
    · simp only [setAssoc, if_neg h1] at h
      rcases List.mem_cons.mp h with h | h
      · exact Or.inl (h ▸ List.mem_cons_self _ _)
      · rcases ih h with h | h
        · exact Or.inl (List.mem_cons_of_mem _ h)
        · exact Or.inr h

lemma namesFold_values (Q : Info → Prop) (info : Info) (hQ : Q info) :
    ∀ (names : List String) (acc : List (String × Info)),
      (∀ p ∈ acc, Q p.2) →
      ∀ p ∈ names.foldl (fun a n => setAssoc a n info) acc, Q p.2 := by
  intro names
  induction names with
  | nil => intro acc hacc; simpa using hacc
  | cons n ns ih =>
    intro acc hacc
    simp only [List.foldl_cons]
    refine ih (setAssoc acc n info) ?_
    intro p hp
    obtain ⟨pk, pv⟩ := p
    rcases mem_setAssoc_inv acc n info pk pv hp with h | h
    · exact hacc (pk, pv) h
    · show Q pv
      rw [h.2]
      exact hQ

/-- Every value of the `name_to_info` dictionary is one of the aggregated
records. -/
lemma buildNameToInfo_mem (infos : List Info) (r : String) (info : Info)
    (h : (buildNameToInfo infos).lookup r = some info) : info ∈ infos := by
  have hvals : ∀ p ∈ buildNameToInfo infos, p.2 ∈ infos := by
    suffices hs : ∀ (l : List Info) (acc : List (String × Info)),
        (∀ i ∈ l, i ∈ infos) → (∀ p ∈ acc, p.2 ∈ infos) →
        ∀ p ∈ l.foldl
            (fun acc info => info.names.foldl (fun a n => setAssoc a n info) acc)
            acc,
          p.2 ∈ infos by
      exact hs infos [] (fun i hi => hi) (by simp)
    intro l
    induction l with
    | nil => intro acc _ hacc; simpa using hacc
    | cons i0 ls ih =>
      intro acc hl hacc
      simp only [List.foldl_cons]
      refine ih (i0.names.foldl (fun a n => setAssoc a n i0) acc)
        (fun i hi => hl i (List.mem_cons_of_mem _ hi)) ?_
      exact namesFold_values (fun j => j ∈ infos) i0
        (hl i0 (List.mem_cons_self _ _)) i0.names acc hacc
  exact hvals (r, info) (mem_of_lookup _ r info h)

/-- The OTU window sequence to which one `nm` entry's multiplicity is
accumulated: its normalized read name resolved through the read-to-OTU
index. -/
def entrySeq (n2i : List (String × Info)) (unOrfm : String → String)
    (e : Json) : Option String :=
  match entryName unOrfm e with
  | some r =>
    match n2i.lookup r with
    | some info => some info.seq
    | none => none
  | none => none

/-- The summed multiplicity of all the document's `nm` entries that resolve
to the OTU with window sequence `k` (the accumulation of §4.4, restated
over the input document). -/
def docSeqSum (n2i : List (String × Info)) (unOrfm : String → String)
    (doc : Json) (k : String) : Int :=
  match doc with
  | .obj fields =>
    match fields.lookup "placements" with
    | some (.arr ps) =>
      (ps.map (fun p =>
        (((nmEntries p).filter
            (fun e => entrySeq n2i unOrfm e = some k)).map entryCount).sum)).sum
    | _ => 0
  | _ => 0

lemma entriesFold_countsVal (n2i : List (String × Info))
    (pf : List (String × Json)) (unOrfm : String → String) :
    ∀ (entries : List Json) (st st' : RewriteState),
      entries.foldlM (processEntry n2i pf unOrfm) st = .ok st' →
      ∀ k, (st'.counts.lookup k).getD 0
        = (st.counts.lookup k).getD 0 +
          (((entries.filter
              (fun e => entrySeq n2i unOrfm e = some k)).map entryCount).sum) := by
  intro entries
  induction entries with
  | nil =>
    intro st st' h k
    simp only [List.foldlM_nil, pure, Except.pure, Except.ok.injEq] at h
    subst h
    simp
  | cons e es ih =>
    intro st st' h k
    rw [List.foldlM_cons] at h
    cases hstep : processEntry n2i pf unOrfm st e with
    | error e0 => rw [hstep] at h; simp [Bind.bind, Except.bind] at h
    | ok st1 =>
      rw [hstep] at h
      simp only [Bind.bind, Except.bind] at h
      have hih := ih st1 st' h k
      obtain ⟨name, count, info, he, hlook, hcounts, _⟩ :=
        processEntry_ok_inv hstep
      subst he
      have hseq : entrySeq n2i unOrfm (Json.arr [Json.str name, Json.num count])
          = some info.seq := by
        simp [entrySeq, entryName, hlook]
      have hlk1 : (st1.counts.lookup k).getD 0
          = (st.counts.lookup k).getD 0 + (if k = info.seq then count else 0) := by
        rw [hcounts, lookup_bumpCount]
        by_cases hk : k = info.seq
        · simp [hk]
        · simp [hk]
      have hcnt0 : entryCount (Json.arr [Json.str name, Json.num count])
          = count := rfl
      by_cases hk : info.seq = k
      · have hfil : (Json.arr [Json.str name, Json.num count] :: es).filter
            (fun e => entrySeq n2i unOrfm e = some k)
            = Json.arr [Json.str name, Json.num count] ::
              es.filter (fun e => entrySeq n2i unOrfm e = some k) := by
          simp [List.filter_cons, hseq, hk]
        rw [hfil]
        simp only [List.map_cons, List.sum_cons, hcnt0]
        rw [hih, hlk1]
        simp only [if_pos hk.symm]
        omega
      · have hfil : (Json.arr [Json.str name, Json.num count] :: es).filter
            (fun e => entrySeq n2i unOrfm e = some k)
            = es.filter (fun e => entrySeq n2i unOrfm e = some k) := by
          simp [List.filter_cons, hseq, hk]
        rw [hfil, hih, hlk1]
        simp only [if_neg (fun he : k = info.seq => hk he.symm)]
        omega

lemma placementsFold_countsVal (n2i : List (String × Info))
    (unOrfm : String → String) :
    ∀ (ps : List Json) (st st' : RewriteState),
      ps.foldlM (processPlacement n2i unOrfm) st = .ok st' →
      ∀ k, (st'.counts.lookup k).getD 0
        = (st.counts.lookup k).getD 0 +
          (ps.map (fun p =>
            (((nmEntries p).filter
                (fun e => entrySeq n2i unOrfm e = some k)).map entryCount).sum)).sum := by
  intro ps
  induction ps with
  | nil =>
    intro st st' h k
    simp only [List.foldlM_nil, pure, Except.pure, Except.ok.injEq] at h
    subst h
    simp
  | cons p prest ih =>
    intro st st' h k
    rw [List.foldlM_cons] at h
    cases hstep : processPlacement n2i unOrfm st p with
    | error e0 => rw [hstep] at h; simp [Bind.bind, Except.bind] at h
    | ok st1 =>
      rw [hstep] at h
      simp only [Bind.bind, Except.bind] at h
      have hih := ih st1 st' h k
      obtain ⟨pf, entries, hp, hnm, hents, hfold⟩ := processPlacement_ok_inv hstep
      have hstep1 := entriesFold_countsVal n2i pf unOrfm entries st st1 hfold k
      rw [hih, hstep1]
      simp only [List.map_cons, List.sum_cons, hents]
      omega

lemma entriesFold_examplesVal (n2i : List (String × Info))
    (pf : List (String × Json)) (unOrfm : String → String) :
    ∀ (entries : List Json) (st st' : RewriteState),
      entries.foldlM (processEntry n2i pf unOrfm) st = .ok st' →
      ∀ k v, (k, v) ∈ st'.examples →
        (k, v) ∈ st.examples ∨
        (pf.lookup "p" = some v ∧
          ∃ e ∈ entries, ∃ r info, entryName unOrfm e = some r ∧
            n2i.lookup r = some info ∧ info.seq = k ∧
            info.names.head? = some r) := by
  intro entries
  induction entries with
  | nil =>
    intro st st' h k v hkv
    simp only [List.foldlM_nil, pure, Except.pure, Except.ok.injEq] at h
    subst h
    exact Or.inl hkv
  | cons e es ih =>
    intro st st' h k v hkv
    rw [List.foldlM_cons] at h
    cases hstep : processEntry n2i pf unOrfm st e with
    | error e0 => rw [hstep] at h; simp [Bind.bind, Except.bind] at h
    | ok st1 =>
      rw [hstep] at h
      simp only [Bind.bind, Except.bind] at h
      obtain ⟨name, count, info, he, hlook, _, hex⟩ := processEntry_ok_inv hstep
      subst he
      have hrn : entryName unOrfm (Json.arr [Json.str name, Json.num count])
          = some (stripFrameSuffix (unOrfm name)) := rfl
      rcases ih st1 st' h k v hkv with h1 | ⟨hp, e0, he0, r, info', hr1, hr2, hr3, hr4⟩
      · rcases hex with ⟨hhead, pv, hpv, hexeq⟩ | ⟨hhead, hexeq⟩
        · rw [hexeq] at h1
          rcases mem_setAssoc_inv st.examples info.seq pv k v h1 with h2 | ⟨h2, h3⟩
          · exact Or.inl h2
          · subst h3
            refine Or.inr ⟨hpv, Json.arr [Json.str name, Json.num count],
              List.mem_cons_self _ _, stripFrameSuffix (unOrfm name), info,
              hrn, hlook, h2.symm, hhead⟩
        · rw [hexeq] at h1
          exact Or.inl h1
      · exact Or.inr ⟨hp, e0, List.mem_cons_of_mem _ he0, r, info',
          hr1, hr2, hr3, hr4⟩

lemma placementsFold_examplesVal (n2i : List (String × Info))
    (unOrfm : String → String) :
    ∀ (ps : List Json) (st st' : RewriteState),
      ps.foldlM (processPlacement n2i unOrfm) st = .ok st' →
      ∀ k v, (k, v) ∈ st'.examples →
        (k, v) ∈ st.examples ∨
        ∃ q ∈ ps, ∃ qf, q = Json.obj qf ∧ qf.lookup "p" = some v ∧
          ∃ e ∈ nmEntries q, ∃ r info, entryName unOrfm e = some r ∧
            n2i.lookup r = some info ∧ info.seq = k ∧
            info.names.head? = some r := by
  intro ps
  induction ps with
  | nil =>
    intro st st' h k v hkv
    simp only [List.foldlM_nil, pure, Except.pure, Except.ok.injEq] at h
    subst h
    exact Or.inl hkv
  | cons p prest ih =>
    intro st st' h k v hkv
    rw [List.foldlM_cons] at h
    cases hstep : processPlacement n2i unOrfm st p with
    | error e0 => rw [hstep] at h; simp [Bind.bind, Except.bind] at h
    | ok st1 =>
      rw [hstep] at h
      simp only [Bind.bind, Except.bind] at h
      obtain ⟨pf, entries, hp, hnm, hents, hfold⟩ := processPlacement_ok_inv hstep
      rcases ih st1 st' h k v hkv with h1 | ⟨q, hq, qf, hq1, hq2, hq3⟩
      · rcases entriesFold_examplesVal n2i pf unOrfm entries st st1 hfold k v h1
          with h2 | ⟨hpv, e0, he0, r, info, hr1, hr2, hr3, hr4⟩
        · exact Or.inl h2
        · refine Or.inr ⟨p, List.mem_cons_self _ _, pf, hp, hpv, e0, ?_, r, info,
            hr1, hr2, hr3, hr4⟩
          rw [hents]
          exact he0
      · exact Or.inr ⟨q, List.mem_cons_of_mem _ hq, qf, hq1, hq2, hq3⟩

/-- A well-formed version-3 placement document with one placed read. -/
def c3Doc : Json := Json.obj
  [("version", Json.num 3),
   ("placements", Json.arr
     [Json.obj [("nm", Json.arr [Json.arr [Json.str "r1", Json.num 2]]),
                ("p", Json.arr [Json.num 1])]]),
   ("tree", Json.str "T")]

/-- The single OTU record owning read `r1`. -/
def c3Info : Info :=
  { seq := "S", count := 1, taxonomy := "", names := ["r1"], coverage := 1,
    aligned_lengths := [4] }

/-- What the rewriter produces for `c3Doc`: note `placements` has become a
JSON **object** keyed by OTU sequence. -/
def c3Out : Json := Json.obj
  [("version", Json.num 3),
   ("placements", Json.obj
     [("S", Json.obj [("nm", Json.arr [Json.arr [Json.str "S", Json.num 2]]),
                      ("p", Json.arr [Json.num 1])])]),
   ("tree", Json.str "T")]

/-- C3 counterexample: the input document's `placements` is a JSON array,
but the rewritten document's `placements` is a JSON object (a dict keyed by
OTU sequence), so the output does **not** have the same JSON shape as the
input. -/
theorem C3_counterexample :
    placementsIsArray c3Doc = true ∧
    write_jplace_from_infos id c3Doc [c3Info] = .ok c3Out ∧
    placementsIsArray c3Out = false ∧
    placementsIsObject c3Out = true :=
  ⟨rfl, rfl, rfl, rfl⟩

/-- C3 (amended): the rewritten document replaces the `placements` **array**
with a JSON **object** whose keys are distinct OTU window sequences of the
aggregated records (one key per OTU, no duplicates); each key maps to an
object whose `nm` field is the single pair `[sequence, summed multiplicity
of all the document's entries resolving to that OTU]` and whose `p` field
is passed through from an input placement holding an entry of that OTU's
first-encountered contributing read; all other top-level fields are passed
through unmodified. -/
theorem C3_output_shape (unOrfm : String → String) (doc : Json)
    (infos : List Info) (out : Json)
    (h : write_jplace_from_infos unOrfm doc infos = .ok out) :
    ∃ fields ps newPl,
      doc = Json.obj fields ∧
      fields.lookup "placements" = some (Json.arr ps) ∧
      out = Json.obj (setAssoc fields "placements" (Json.obj newPl)) ∧
      (keysOf newPl).Nodup ∧
      (∀ q ∈ newPl,
        (∃ info ∈ infos, info.seq = q.1) ∧
        ∃ pv, q.2 = Json.obj
            [("nm", Json.arr [Json.arr [Json.str q.1,
                Json.num (docSeqSum (buildNameToInfo infos) unOrfm doc q.1)]]),
             ("p", pv)] ∧
          ∃ p0 ∈ ps, ∃ pf0, p0 = Json.obj pf0 ∧ pf0.lookup "p" = some pv ∧
            ∃ e ∈ nmEntries p0, ∃ r info,
              entryName unOrfm e = some r ∧
              (buildNameToInfo infos).lookup r = some info ∧
              info.seq = q.1 ∧ info.names.head? = some r) ∧
      ∀ key, key ≠ "placements" →
        (setAssoc fields "placements" (Json.obj newPl)).lookup key
          = fields.lookup key := by
  obtain ⟨fields, ps, st, hdoc, hver, hpl, hfold, hout⟩ := write_jplace_ok_inv h
  subst hdoc
  have hwf0 : StateWF ⟨[], []⟩ := ⟨by simp [keysOf], by simp [keysOf], by simp [keysOf]⟩
  obtain ⟨_, _, hek, hwff⟩ := placementsFold_inv (buildNameToInfo infos) unOrfm ps
    ⟨[], []⟩ st hfold
  have hwf := hwff hwf0
  have hcnt := placementsFold_countsVal (buildNameToInfo infos) unOrfm ps
    ⟨[], []⟩ st hfold
  have hexv := placementsFold_examplesVal (buildNameToInfo infos) unOrfm ps
    ⟨[], []⟩ st hfold
  refine ⟨fields, ps, _, rfl, hpl, hout, ?_, ?_, ?_⟩
  · have := hwf.2.1
    simpa [keysOf, List.map_map, Function.comp] using this
  · intro q hq
    rcases List.mem_map.mp hq with ⟨p, hp, hq'⟩
    subst hq'
    have hpmem : (p.1, p.2) ∈ st.examples := by
      rw [Prod.mk.eta]
      exact hp
    constructor
    · have hkmem : p.1 ∈ keysOf st.examples := List.mem_map.mpr ⟨p, hp, rfl⟩
      rw [hek p.1] at hkmem
      rcases hkmem with hk0 | ⟨r, _, info, hlk, hseq, _⟩
      · simp [keysOf] at hk0
      · exact ⟨info, buildNameToInfo_mem infos r info hlk, hseq⟩
    · refine ⟨p.2, ?_, ?_⟩
      · have hc : (st.counts.lookup p.1).getD 0
            = docSeqSum (buildNameToInfo infos) unOrfm (Json.obj fields) p.1 := by
          rw [hcnt p.1]
          simp [docSeqSum, hpl, List.lookup]
        show Json.obj
            [("nm", Json.arr [Json.arr
                [Json.str p.1, Json.num ((st.counts.lookup p.1).getD 0)]]),
             ("p", p.2)]
          = Json.obj
            [("nm", Json.arr [Json.arr [Json.str p.1,
                Json.num (docSeqSum (buildNameToInfo infos) unOrfm
                  (Json.obj fields) p.1)]]),
             ("p", p.2)]
        rw [hc]
      · rcases hexv p.1 p.2 hpmem with h0 | ⟨q0, hq0, qf, hq1, hq2, e0, he0, r,
          info, hr1, hr2, hr3, hr4⟩
        · simp at h0
        · exact ⟨q0, hq0, qf, hq1, hq2, e0, he0, r, info, hr1, hr2, hr3, hr4⟩
  · intro key hkey
    rw [lookup_setAssoc]
    simp [hkey]

/-- Witness for C3 (amended) at the concrete document `c3Doc`. -/
theorem C3_output_shape_witness :
    ∃ fields ps newPl,
      c3Doc = Json.obj fields ∧
      fields.lookup "placements" = some (Json.arr ps) ∧
      c3Out = Json.obj (setAssoc fields "placements" (Json.obj newPl)) ∧
      (keysOf newPl).Nodup ∧
      (∀ q ∈ newPl,
        (∃ info ∈ [c3Info], info.seq = q.1) ∧
        ∃ pv, q.2 = Json.obj
            [("nm", Json.arr [Json.arr [Json.str q.1,
                Json.num (docSeqSum (buildNameToInfo [c3Info]) id c3Doc q.1)]]),
             ("p", pv)] ∧
          ∃ p0 ∈ ps, ∃ pf0, p0 = Json.obj pf0 ∧ pf0.lookup "p" = some pv ∧
            ∃ e ∈ nmEntries p0, ∃ r info,
              entryName id e = some r ∧
              (buildNameToInfo [c3Info]).lookup r = some info ∧
              info.seq = q.1 ∧ info.names.head? = some r) ∧
      ∀ key, key ≠ "placements" →
        (setAssoc fields "placements" (Json.obj newPl)).lookup key
          = fields.lookup key :=
  C3_output_shape id c3Doc [c3Info] c3Out rfl

lemma sum_lookup_self (l : List (String × Int)) (hnd : (keysOf l).Nodup) :
    ((keysOf l).map (fun k => (l.lookup k).getD 0)).sum = sumInt l := by
  induction l with
  | nil => simp [keysOf, sumInt]
  | cons p rest ih =>
    obtain ⟨k, v⟩ := p
    simp only [keysOf, List.map_cons, List.nodup_cons] at hnd
    have h1 : ((((k, v) :: rest)).lookup k).getD 0 = v := by simp [List.lookup]
    have h2 : (rest.map Prod.fst).map (fun k' => ((((k, v) :: rest)).lookup k').getD 0)
        = (rest.map Prod.fst).map (fun k' => ((rest.lookup k')).getD 0) := by
      apply List.map_congr_left
      intro a ha
      have hak : (a == k) = false := by
        have hne : a ≠ k := fun he => hnd.1 (he ▸ ha)
        simpa using hne
      simp [List.lookup, hak]
    simp only [keysOf, List.map_cons, List.sum_cons, h1, h2]
    rw [show (rest.map Prod.fst).map (fun k' => ((rest.lookup k')).getD 0)
        = (keysOf rest).map (fun k' => ((rest.lookup k')).getD 0) from rfl]
    rw [ih hnd.2]
    simp [sumInt]

/-- C2 (amended): the rewriter preserves the total multiplicity provided
that, in addition to the claim's preconditions, the first-encountered
contributing read of every OTU referenced by the document also occurs
(normalized) among the document's `nm` entries and indexes to that OTU.
(The source emits one output placement per entry of
`sequence_to_example_p`, which is only populated by an OTU's
first-encountered read; a counted OTU whose first read was never placed is
silently dropped, so the claim as stated fails — see the counterexample.) -/
theorem C2_multiplicity_sum (unOrfm : String → String) (doc : Json)
    (infos : List Info) (out : Json)
    (hH : ∀ r ∈ docNames unOrfm doc, ∀ info,
      (buildNameToInfo infos).lookup r = some info →
      ∃ h1, info.names.head? = some h1 ∧ h1 ∈ docNames unOrfm doc ∧
        (buildNameToInfo infos).lookup h1 = some info)
    (h : write_jplace_from_infos unOrfm doc infos = .ok out) :
    outputNmSum out = inputNmSum doc := by
  obtain ⟨fields, ps, st, hdoc, hver, hpl, hfold, hout⟩ := write_jplace_ok_inv h
  subst hdoc
  have hwf0 : StateWF ⟨[], []⟩ :=
    ⟨by simp [keysOf], by simp [keysOf], by simp [keysOf]⟩
  obtain ⟨hsum, hck, hek, hwff⟩ := placementsFold_inv (buildNameToInfo infos)
    unOrfm ps ⟨[], []⟩ st hfold
  have hwf := hwff hwf0
  have hdocnames : docNames unOrfm (Json.obj fields)
      = (ps.map (fun p => (nmEntries p).filterMap (entryName unOrfm))).flatten := by
    simp [docNames, hpl]
  have hkeys : ∀ k, k ∈ keysOf st.examples ↔ k ∈ keysOf st.counts := by
    intro k
    constructor
    · exact hwf.2.2 k
    · intro hk
      rw [hck k] at hk
      rcases hk with hk | ⟨r, hr, info, hlk, hseq⟩
      · simp [keysOf] at hk
      · rw [← hdocnames] at hr
        obtain ⟨h1, hhead, hmem1, hlk1⟩ := hH r hr info hlk
        rw [hek k]
        refine Or.inr ⟨h1, ?_, info, hlk1, hseq, hhead⟩
        rw [hdocnames] at hmem1
        exact hmem1
  have houtsum_obj : ∀ (fs entries : List (String × Json)),
      fs.lookup "placements" = some (Json.obj entries) →
      outputNmSum (Json.obj fs) = (entries.map (fun q => placementNmSum q.2)).sum := by
    intro fs entries hlu
    simp [outputNmSum, hlu]
  have hlist : (st.examples.map (fun p =>
      (p.1, Json.obj
        [("nm", Json.arr [Json.arr
            [Json.str p.1, Json.num ((st.counts.lookup p.1).getD 0)]]),
         ("p", p.2)]))).map (fun q => placementNmSum q.2)
      = st.examples.map (fun p => (st.counts.lookup p.1).getD 0) := by
    rw [List.map_map]
    apply List.map_congr_left
    intro p hp
    simp [placementNmSum, nmEntries, entryCount, List.lookup]
  have hklist : (keysOf st.examples).map (fun k => (st.counts.lookup k).getD 0)
      = st.examples.map (fun p => (st.counts.lookup p.1).getD 0) := by
    simp only [keysOf]
    rw [List.map_map]
    rfl
  have hplset : (setAssoc fields "placements" (Json.obj
      (st.examples.map (fun p =>
        (p.1, Json.obj
          [("nm", Json.arr [Json.arr
              [Json.str p.1, Json.num ((st.counts.lookup p.1).getD 0)]]),
           ("p", p.2)]))))).lookup "placements"
      = some (Json.obj (st.examples.map (fun p =>
        (p.1, Json.obj
          [("nm", Json.arr [Json.arr
              [Json.str p.1, Json.num ((st.counts.lookup p.1).getD 0)]]),
           ("p", p.2)])))) := by
    rw [lookup_setAssoc]
    simp
  have houtsum : outputNmSum out
      = ((keysOf st.examples).map (fun k => (st.counts.lookup k).getD 0)).sum := by
    rw [hout, houtsum_obj _ _ hplset, hlist, hklist]
  have hperm : List.Perm (keysOf st.examples) (keysOf st.counts) :=
    (List.perm_ext_iff_of_nodup hwf.2.1 hwf.1).mpr hkeys
  have hmapsum := (hperm.map (fun k => (st.counts.lookup k).getD 0)).sum_eq
  rw [houtsum, hmapsum, sum_lookup_self st.counts hwf.1]
  rw [hsum]
  simp [sumInt, inputNmSum, hpl]

/-- A version-3 document placing read `r2` with multiplicity 5. -/
def c2Doc : Json := Json.obj
  [("version", Json.num 3),
   ("placements", Json.arr
     [Json.obj [("nm", Json.arr [Json.arr [Json.str "r2", Json.num 5]]),
                ("p", Json.arr [])]]),
   ("tree", Json.str "T")]

/-- An OTU whose first-encountered contributing read is `r1`, but whose
read `r2` is the one placed in `c2Doc`. -/
def c2Info : Info :=
  { seq := "S", count := 2, taxonomy := "", names := ["r1", "r2"], coverage := 2,
    aligned_lengths := [4, 4] }

/-- The rewriter's output for `c2Doc` with `c2Info`: the 5 counted
multiplicities of OTU `S` are dropped because `r2` is not `S`'s
first-encountered read, so no representative placement is captured. -/
def c2Out : Json := Json.obj
  [("version", Json.num 3), ("placements", Json.obj []), ("tree", Json.str "T")]

/-- C2 counterexample: every normalized read name of `c2Doc` is present in
the read-to-OTU index, the rewrite succeeds, yet the output multiplicity sum
is 0 while the input multiplicity sum is 5. -/
theorem C2_counterexample :
    (docNames id c2Doc).all
      (fun r => ((buildNameToInfo [c2Info]).lookup r).isSome) = true ∧
    write_jplace_from_infos id c2Doc [c2Info] = .ok c2Out ∧
    outputNmSum c2Out = 0 ∧
    inputNmSum c2Doc = 5 :=
  ⟨rfl, rfl, rfl, rfl⟩

/-- A document placing both frame-decorated reads `a_1` and `a_2` of the
single-read OTU `S` (both normalize to `a`, the OTU's first read). -/
def c2GoodDoc : Json := Json.obj
  [("version", Json.num 3),
   ("placements", Json.arr
     [Json.obj [("nm", Json.arr [Json.arr [Json.str "a_1", Json.num 3]]),
                ("p", Json.arr [Json.num 7])],
      Json.obj [("nm", Json.arr [Json.arr [Json.str "a_2", Json.num 2]]),
                ("p", Json.arr [Json.num 8])]]),
   ("tree", Json.str "T")]

/-- The OTU owning read `a`. -/
def c2GoodInfo : Info :=
  { seq := "S", count := 2, taxonomy := "", names := ["a"], coverage := 2,
    aligned_lengths := [4, 4] }

/-- The rewriter's output for `c2GoodDoc`: one placement for `S` with the
merged multiplicity 5 and the last captured representative `p`. -/
def c2GoodOut : Json := Json.obj
  [("version", Json.num 3),
   ("placements", Json.obj
     [("S", Json.obj [("nm", Json.arr [Json.arr [Json.str "S", Json.num 5]]),
                      ("p", Json.arr [Json.num 8])])]),
   ("tree", Json.str "T")]

/-- Witness for C2 (amended) at `c2GoodDoc`: 3 + 2 = 5 is preserved. -/
theorem C2_multiplicity_sum_witness :
    outputNmSum c2GoodOut = inputNmSum c2GoodDoc :=
  C2_multiplicity_sum id c2GoodDoc [c2GoodInfo] c2GoodOut
    (by
      intro r hr info hinfo
      rw [show docNames id c2GoodDoc = ["a", "a"] from rfl] at hr
      have hra : r = "a" := by
        rcases List.mem_cons.mp hr with h | h
        · exact h
        · simpa using h
      subst hra
      rw [show (buildNameToInfo [c2GoodInfo]).lookup "a" = some c2GoodInfo
        from rfl] at hinfo
      injection hinfo with h2
      subst h2
      refine ⟨"a", rfl, ?_, rfl⟩
      rw [show docNames id c2GoodDoc = ["a", "a"] from rfl]
      exact List.mem_cons_self _ _)
    rfl

end SingleM
